import Mathlib

set_option maxHeartbeats 1000000

set_option maxRecDepth 10000

namespace Bundlication

/-!
Verification of the bevy_bundlication replication engine.

This file gives a shallow embedding, in Lean 4, of the parts of the
bevy_bundlication source that the checked claims are about:

* `src/src/client_authority.rs` — `Identity`, `Authority`, `Authority::can_claim`;
* `src/src/identifier.rs` / `src/src/lib.rs` — `Identifier`, `EntityStatus`,
  `IdentifierMap::get`, `IdentifierMap::despawn`;
* `src/macros/src/lib.rs` — the `apply_changes` handler generated by the
  `NetworkedBundle` derive macro (existing-entity update path, `Remote<T>`
  routing, and the server-side spawn path);
* `src/src/despawn.rs` — `handle_despawns`;
* `src/src/buffer.rs` — `SendRule`, `TakenBuffers::send_filtered`,
  `TakenBuffers::overhead`, `TakenBuffers::fragment`;
* `src/src/lib.rs` — `generate_ids`, `Handlers::with_capacity`,
  `Handlers::process`.

Machine integers (`u8`, `u32`) are modelled as `Nat`: the embedded code only
compares ticks and ids for order and equality and never exercises wrap-around
arithmetic; the one wrapping operation that matters (bevy's change-tick
comparison `Tick::is_newer_than`, an external dependency of
`send_filtered`) is embedded with its modular arithmetic spelled out.
Byte buffers are `List Nat`.  Rust `loop`/`while` constructs are embedded as
fuel-indexed structural recursions where the fuel bound (one unit per loop
iteration, and every iteration consumes at least one byte) is passed as
`length + 1` at the call site, so the functions stay kernel-computable.
-/

/-- Identity of a connection: the server, or a client with its `u32` id
(`src/src/client_authority.rs`, `enum Identity`). -/
inductive Identity where
  | Server : Identity
  | Client : Nat → Identity
deriving DecidableEq, Repr

/-- Per-entity authority: who may write the entity
(`src/src/client_authority.rs`, `enum Authority`).  When the component is
absent the code substitutes `Authority::default()`, which is `Server`. -/
inductive Authority where
  | Server : Authority
  | Free : Authority
  | Client : Nat → Authority
deriving DecidableEq, Repr

/-- Embedding of `Authority::can_claim` (`src/src/client_authority.rs`):
`Server => false`, `Free => true`, `Client(owner) => owner == client_id`. -/
def Authority.can_claim : Authority → Nat → Bool
  | .Server, _ => false
  | .Free, _ => true
  | .Client owner, client_id => owner == client_id

/-- Cross-process stable identifier `(entity_type: u8, id: u32)`
(`src/src/identifier.rs`, `struct Identifier`). -/
structure Identifier where
  entity_type : Nat
  id : Nat
deriving DecidableEq, Repr

/-- Status of an identifier in the `IdentifierMap`
(`src/src/identifier.rs`, `enum EntityStatus`): alive with a local entity
handle (modelled as `Nat`), or despawned at a tick. -/
inductive EntityStatus where
  | Alive : Nat → EntityStatus
  | Despawned : Nat → EntityStatus
deriving DecidableEq, Repr

/-- Errors of identifier resolution (`src/src/identifier.rs`,
`enum IdentifierError`). -/
inductive IdentifierError where
  | Despawned : IdentifierError
  | NonExistent : IdentifierError
deriving DecidableEq, Repr

/-- Lookup in the `from_id : HashMap<Identifier, EntityStatus>` field,
modelled as an association list (first binding wins, and the insert
operations below keep keys unique). -/
def lookupIdent : List (Identifier × EntityStatus) → Identifier → Option EntityStatus
  | [], _ => none
  | (k, v) :: rest, i => if k = i then some v else lookupIdent rest i

/-- `HashMap::insert` on the identifier map: replace the binding if the key
is present, append otherwise. -/
def insertIdent : List (Identifier × EntityStatus) → Identifier → EntityStatus →
    List (Identifier × EntityStatus)
  | [], i, v => [(i, v)]
  | (k, w) :: rest, i, v =>
    if k = i then (k, v) :: rest else (k, w) :: insertIdent rest i v

/-- The identifier map (`src/src/identifier.rs`, `struct IdentifierMap`).
Only the `from_id` direction is needed by the claims; the reverse `to_id`
map and the `unspawned` reservation list are not modelled. -/
structure IdentifierMap where
  from_id : List (Identifier × EntityStatus)
deriving DecidableEq, Repr

/-- Embedding of `IdentifierMap::get` (`src/src/identifier.rs` lines
207-220, identical to the copy in `src/src/lib.rs` lines 427-440): if the
stored status is `Despawned(d)` with `d < tick`, return
`Err(Despawned)`; otherwise return the stored status as `Ok`;
an untracked identifier yields `Err(NonExistent)`. -/
def IdentifierMap.get (m : IdentifierMap) (ident : Identifier) (tick : Nat) :
    Except IdentifierError EntityStatus :=
  let status := lookupIdent m.from_id ident
  match status with
  | some (.Despawned despawned_at) =>
    if despawned_at < tick then .error .Despawned else .ok (.Despawned despawned_at)
  | some v => .ok v
  | none => .error .NonExistent

/-- Embedding of `IdentifierMap::despawn` (`src/src/identifier.rs`): the
identifier's status becomes `Despawned(tick)` (the reverse map, not
modelled, drops the entity). -/
def IdentifierMap.despawn (m : IdentifierMap) (ident : Identifier) (tick : Nat) :
    IdentifierMap :=
  ⟨insertIdent m.from_id ident (.Despawned tick)⟩

/-!
Section: The generated `apply_changes` handler (`src/macros/src/lib.rs` lines 275-340)

The `NetworkedBundle` derive macro generates, for a bundle of networked
component fields, an `apply_changes(world, ident, tick, cursor)` function.
We embed the state it touches on one entity: the `Authority` component,
`LastUpdate<Self>` (per-bundle last-applied tick), `LastUpdate<()>`
(ungrouped last touch of the entity), and per networked field either a
`Remote<T>` container (holding a value and the tick it came from) or the
direct component `T`.  Component values are modelled as `Nat`.

A field whose `#[networked(update = f)]` attribute names a custom update
function applies `f(&mut current, new)` instead of `*current = new`; the
embedding takes this as a parameter `upd : Nat → Nat → Nat` (`upd old new`),
with the macro's default being `overwriteUpdate`.
-/

/-- Per networked field state on an entity: the optional `Remote<T>`
container `(value, tick)` (`src/src/lib.rs` lines 41-75) and the optional
direct component value. -/
structure CompSlot where
  remote : Option (Nat × Nat)
  direct : Option Nat
deriving DecidableEq, Repr

/-- The replication-relevant state of one entity. -/
structure EntityState where
  authority : Option Authority
  lastUpdateBundle : Option Nat
  lastUpdateEntity : Option Nat
  comps : List CompSlot
deriving DecidableEq, Repr

/-- The macro's default update function `*c = new_value`. -/
def overwriteUpdate : Nat → Nat → Nat := fun _ v => v

/-- One field of the component-application loop of `apply_changes`
(`src/macros/src/lib.rs` lines 308-318): if a `Remote<T>` is present, store
the received value and the message tick there (`remote.update(v, tick)`);
otherwise overwrite/merge the direct component if present, or insert the
received value if absent. -/
def applyComp (upd : Nat → Nat → Nat) (tick : Nat) (slot : CompSlot) (v : Nat) : CompSlot :=
  match slot.remote with
  | some _ => { slot with remote := some (v, tick) }
  | none =>
    match slot.direct with
    | some c => { slot with direct := some (upd c v) }
    | none => { slot with direct := some v }

/-- The existing-entity branch of `apply_changes` (`src/macros/src/lib.rs`
lines 289-324): reject if `LastUpdate<Self> >= tick` (stale); for a client
sender reject unless `Authority::can_claim`, and on acceptance insert
`Authority::Client(client_id)`; then record `LastUpdate<Self> = tick`,
raise `LastUpdate<()>` to `tick` if newer, and apply each received value to
its field slot.  Rejection returns the state unchanged. -/
def applyExisting (upd : Nat → Nat → Nat) (sender : Identity) (tick : Nat)
    (vals : List Nat) (st : EntityState) : EntityState :=
  let bundle_tick := st.lastUpdateBundle.getD 0
  if tick ≤ bundle_tick then st
  else
    let auth := st.authority.getD .Server
    let step : EntityState → EntityState := fun s =>
      let s1 : EntityState := { s with lastUpdateBundle := some tick }
      let entity_tick := s1.lastUpdateEntity.getD 0
      let s2 : EntityState :=
        if entity_tick < tick then { s1 with lastUpdateEntity := some tick } else s1
      { s2 with comps := List.zipWith (applyComp upd tick) s2.comps vals }
    match sender with
    | .Client client_id =>
      if auth.can_claim client_id then
        step { st with authority := some (.Client client_id) }
      else st
    | .Server => step st

/-- Lookup in the world's entity table (association list keyed by the
local entity handle). -/
def lookupEnt : List (Nat × EntityState) → Nat → Option EntityState
  | [], _ => none
  | (k, v) :: rest, e => if k = e then some v else lookupEnt rest e

/-- Insert/replace in the world's entity table. -/
def insertEnt : List (Nat × EntityState) → Nat → EntityState → List (Nat × EntityState)
  | [], e, st => [(e, st)]
  | (k, v) :: rest, e, st =>
    if k = e then (k, st) :: rest else (k, v) :: insertEnt rest e st

/-- Remove from the world's entity table (entity despawn). -/
def removeEnt : List (Nat × EntityState) → Nat → List (Nat × EntityState)
  | [], _ => []
  | (k, v) :: rest, e => if k = e then rest else (k, v) :: removeEnt rest e

/-- The world as seen by the receive path: the identifier map, the entity
table, and a fresh-handle counter for spawns. -/
structure SimWorld where
  map : List (Identifier × EntityStatus)
  ents : List (Nat × EntityState)
  nextEnt : Nat
deriving DecidableEq, Repr

/-- The tail of `apply_changes` after identifier resolution and component
deserialization (`src/macros/src/lib.rs` lines 289-339): if the resolved
entity exists, run the existing-entity branch; otherwise (`NonExistent`
or `Despawned`-error resolution, or an entity missing from the world),
spawn a fresh entity carrying the received values, `LastUpdate<Self>` and
`LastUpdate<()>` at the message tick — but only when the sender is the
server; a client sender changes nothing. -/
def applyUpdateCore (upd : Nat → Nat → Nat) (sender : Identity) (tick : Nat)
    (identifier : Identifier) (vals : List Nat) (entityOpt : Option Nat)
    (w : SimWorld) : SimWorld :=
  let spawnIfServer : SimWorld :=
    if sender = .Server then
      { map := insertIdent w.map identifier (.Alive w.nextEnt)
        ents := insertEnt w.ents w.nextEnt
          { authority := none
            lastUpdateBundle := some tick
            lastUpdateEntity := some tick
            comps := vals.map (fun v => { remote := none, direct := some v }) }
        nextEnt := w.nextEnt + 1 }
    else w
  match entityOpt with
  | some e =>
    match lookupEnt w.ents e with
    | some st => { w with ents := insertEnt w.ents e (applyExisting upd sender tick vals st) }
    | none => spawnIfServer
  | none => spawnIfServer

/-- Whole-message application at world level (identifier already parsed,
component values already deserialized): the identifier-resolution step of
`apply_changes` (`src/macros/src/lib.rs` lines 277-282): an `Ok(Despawned)`
resolution returns immediately; `Ok(Alive(e))` proceeds with the entity;
a resolution error proceeds with no entity (possible spawn). -/
def applyUpdateWorld (upd : Nat → Nat → Nat) (sender : Identity) (tick : Nat)
    (identifier : Identifier) (vals : List Nat) (w : SimWorld) : SimWorld :=
  match IdentifierMap.get ⟨w.map⟩ identifier tick with
  | .ok (.Despawned _) => w
  | .ok (.Alive e) => applyUpdateCore upd sender tick identifier vals (some e) w
  | .error _ => applyUpdateCore upd sender tick identifier vals none w

/-- Cursor-level embedding of `apply_changes` for a bundle of `n` networked
fields.  The wire encoding is abstracted to one cursor token per serialized
span: two tokens for the identifier (`entity_type`, `id`) and one token per
component value; `bincode` failure is cursor exhaustion.  Returns the new
world and the remaining cursor.  Mirrors the source order: the identifier
is read first; an `Ok(Despawned)` resolution returns with only the
identifier consumed; the `n` component values are deserialized (consumed)
BEFORE the staleness/authority checks, which run inside
`applyUpdateCore`/`applyExisting`. -/
def applyChanges (n : Nat) (upd : Nat → Nat → Nat) (sender : Identity) (tick : Nat)
    (w : SimWorld) (cursor : List Nat) : SimWorld × List Nat :=
  match cursor with
  | [] => (w, [])
  | [_] => (w, [])
  | etype :: idv :: rest1 =>
    let identifier : Identifier := ⟨etype, idv⟩
    let entity : Option (Option Nat) :=
      match IdentifierMap.get ⟨w.map⟩ identifier tick with
      | .ok (.Alive e) => some (some e)
      | .ok (.Despawned _) => none
      | .error _ => some none
    match entity with
    | none => (w, rest1)
    | some entityOpt =>
      if n ≤ rest1.length then
        let vals := rest1.take n
        (applyUpdateCore upd sender tick identifier vals entityOpt w, rest1.drop n)
      else (w, rest1)

/-- Embedding of `handle_despawns` (`src/src/despawn.rs` lines 50-89), after
the identifier has been deserialized: resolve it with the message tick; only
an `Ok(Alive)` resolution proceeds; a client sender must satisfy
`can_claim` against the entity's `Authority` (absent defaults to `Server`);
a despawn older than the entity's ungrouped `LastUpdate<()>` is dropped;
otherwise the entity is destroyed and the tombstone `Despawned(tick)`
recorded in the map. -/
def handleDespawn (sender : Identity) (tick : Nat) (identifier : Identifier)
    (w : SimWorld) : SimWorld :=
  match IdentifierMap.get ⟨w.map⟩ identifier tick with
  | .ok (.Alive e) =>
    match lookupEnt w.ents e with
    | none => w
    | some st =>
      let authorized : Bool :=
        match sender with
        | .Client client_id => (st.authority.getD .Server).can_claim client_id
        | .Server => true
      if authorized then
        if tick < st.lastUpdateEntity.getD 0 then w
        else
          { map := insertIdent w.map identifier (.Despawned tick)
            ents := removeEnt w.ents e
            nextEnt := w.nextEnt }
      else w
  | _ => w

/-- A world in which the identifier carries a tombstone at the despawn tick
and the entity handle no longer resolves. -/
def despawnedState (w : SimWorld) (identifier : Identifier) (e td : Nat) : Prop :=
  lookupIdent w.map identifier = some (.Despawned td) ∧ lookupEnt w.ents e = none

/-- A world in which the identifier resolves to a live entity holding the
update's values with `LastUpdate<Self>` and `LastUpdate<()>` at the update
tick. -/
def aliveUpdated (w : SimWorld) (identifier : Identifier) (tu : Nat) (vals : List Nat) : Prop :=
  ∃ e' st', lookupIdent w.map identifier = some (.Alive e')
    ∧ lookupEnt w.ents e' = some st'
    ∧ st'.lastUpdateBundle = some tu
    ∧ st'.lastUpdateEntity = some tu
    ∧ st'.comps = vals.map (fun v => { remote := none, direct := some v })

/-!
Section: Buffering and fragmentation (`src/src/buffer.rs`)

`TakenBuffers` holds, per recipient, a growable byte buffer plus the byte
offset `last_fragment` of the most recent fragment point, and shares a tick
prefix, a change-tick reference `this_run` and a speculative-overhead
counter.  `send_filtered` appends a message's bytes to the matching
recipients; `fragment` marks fragment points and slices off packets.

The baseline filter calls bevy's `Tick::is_newer_than` (change detection of
the external bevy dependency), which compares wrapped `u32` tick ages
clamped to `MAX_CHANGE_AGE`; it is embedded below with its modular
arithmetic spelled out.
-/

/-- Low-water mark, `const THRESHOLD` (`src/src/buffer.rs` line 30). -/
def THRESHOLD : Nat := 1100

/-- Hard packet cap, `const CAP` (`src/src/buffer.rs` line 31). -/
def CAP : Nat := 1198

/-- Modulus of `u32` arithmetic. -/
def U32MOD : Nat := 4294967296

/-- bevy's `MAX_CHANGE_AGE = u32::MAX - (2 * CHECK_TICK_THRESHOLD - 1)`
with `CHECK_TICK_THRESHOLD = 518_400_000`. -/
def MAX_CHANGE_AGE : Nat := 4294967295 - (2 * 518400000 - 1)

/-- bevy's `Tick::relative_to`: wrapping `u32` subtraction. -/
def relativeTo (a b : Nat) : Nat := (a % U32MOD + U32MOD - b % U32MOD) % U32MOD

/-- bevy's `Tick::is_newer_than(self, last_run, this_run)`: both ages are
taken relative to `this_run`, clamped to `MAX_CHANGE_AGE`, and the age of
`last_run` must be strictly larger than the age of `self`. -/
def isNewerThan (self last_run this_run : Nat) : Bool :=
  decide (min (relativeTo this_run self) MAX_CHANGE_AGE
    < min (relativeTo this_run last_run) MAX_CHANGE_AGE)

/-- Recipient selector for a message (`src/src/buffer.rs`, `enum SendRule`). -/
inductive SendRule where
  | All : SendRule
  | Except : Nat → SendRule
  | Only : Nat → SendRule
deriving DecidableEq, Repr

/-- `SendRule::includes` (`src/src/buffer.rs` lines 21-27). -/
def SendRule.includes : SendRule → Identity → Bool
  | .All, _ => true
  | .Except client_id, ident => ident != Identity.Client client_id
  | .Only client_id, ident => ident == Identity.Client client_id

/-- One taken per-recipient buffer (`src/src/buffer.rs`, `struct TakenBuffer`):
destination, the recipient's last-acknowledged change tick
(`RecipientData.last_ack`), the byte buffer, and the byte offset of the
last fragment point.  `Buffers::take` seeds `last_fragment` with 0. -/
structure TakenBuffer where
  destination : Identity
  last_ack : Option Nat
  buffer : List Nat
  last_fragment : Nat
deriving DecidableEq, Repr

/-- The collection of taken buffers (`src/src/buffer.rs`,
`struct TakenBuffers`): the world's current change tick `this_run`, the
4-byte little-endian tick prefix, the buffers, the accumulated speculative
overhead, and the queue of finished packets (`Buffers.filled`). -/
structure TakenBuffers where
  this_run : Nat
  tick : List Nat
  taken : List TakenBuffer
  overhead : Nat
  filled : List (Identity × List Nat)
deriving DecidableEq, Repr

/-- `TakenBuffers::overhead` (`src/src/buffer.rs` lines 187-189): add to the
registered overhead.  (The source field is a `u8`; the claims only exercise
small values, so overflow is not modelled.) -/
def TakenBuffers.addOverhead (tb : TakenBuffers) (n : Nat) : TakenBuffers :=
  { tb with overhead := tb.overhead + n }

/-- `TakenBuffers::send_filtered` (`src/src/buffer.rs` lines 203-215):
append the write buffer's bytes to every taken buffer whose destination the
rule includes and which has no baseline or whose baseline is older than the
message's change tick (per `is_newer_than`). -/
def TakenBuffers.send_filtered (tb : TakenBuffers) (rule : SendRule) (changed : Nat)
    (buf : List Nat) : TakenBuffers :=
  { tb with taken := tb.taken.map (fun t =>
      if rule.includes t.destination
          && (t.last_ack.isNone || isNewerThan changed (t.last_ack.getD 0) tb.this_run) then
        { t with buffer := t.buffer ++ buf }
      else t) }

/-- `TakenBuffers::send` (`src/src/buffer.rs` lines 192-200): send with
`changed = this_run`. -/
def TakenBuffers.send (tb : TakenBuffers) (rule : SendRule) (buf : List Nat) : TakenBuffers :=
  tb.send_filtered rule tb.this_run buf

/-- The `while len > THRESHOLD` loop inside `TakenBuffers::fragment`
(`src/src/buffer.rs` lines 230-253).  Each iteration slices a packet off
the front of the buffer: the whole buffer when it is under the cap or no
fragment point is recorded (`last_fragment == 0`), otherwise the prefix up
to the recorded fragment point; the packet gets the 4-byte tick prefix;
after a cut `last_fragment` is 0.  The loop is embedded with a fuel
argument (each iteration removes at least one byte, so
`buffer.length + 1` fuel at the call site is never exhausted). -/
def fragLoop (tick : List Nat) (destination : Identity) :
    Nat → List Nat → Nat → List (Identity × List Nat) →
      List Nat × Nat × List (Identity × List Nat)
  | 0, buffer, last_fragment, acc => (buffer, last_fragment, acc)
  | fuel + 1, buffer, last_fragment, acc =>
    if THRESHOLD < buffer.length then
      if buffer.length < CAP ∨ last_fragment = 0 then
        fragLoop tick destination fuel [] 0 (acc ++ [(destination, tick ++ buffer)])
      else
        fragLoop tick destination fuel (buffer.drop last_fragment) 0
          (acc ++ [(destination, tick ++ buffer.take last_fragment)])
    else (buffer, last_fragment, acc)

/-- The per-buffer body of `TakenBuffers::fragment` (`src/src/buffer.rs`
lines 219-253): if the whole buffer holds no more than the registered
overhead, drop the bytes after the last fragment point; otherwise if under
the low-water mark, record the current end as the fragment point;
otherwise run the packet-slicing loop. -/
def fragmentBuffer (tick : List Nat) (overhead : Nat) (t : TakenBuffer) :
    TakenBuffer × List (Identity × List Nat) :=
  if t.buffer.length ≤ overhead then
    ({ t with buffer := t.buffer.take t.last_fragment }, [])
  else if t.buffer.length < THRESHOLD then
    ({ t with last_fragment := t.buffer.length }, [])
  else
    let r := fragLoop tick t.destination (t.buffer.length + 1) t.buffer t.last_fragment []
    ({ t with buffer := r.1, last_fragment := r.2.1 }, r.2.2)

/-- `TakenBuffers::fragment` (`src/src/buffer.rs` lines 218-256): run the
per-buffer body over every taken buffer, push the produced packets onto the
finished queue in order, and reset the overhead counter. -/
def TakenBuffers.fragment (tb : TakenBuffers) : TakenBuffers :=
  let results := tb.taken.map (fragmentBuffer tb.tick tb.overhead)
  { tb with
    taken := results.map Prod.fst
    filled := tb.filled ++ (results.map Prod.snd).flatten
    overhead := 0 }

/-- One call against the taken buffers during a send cycle. -/
inductive BufOp where
  | addOverhead : Nat → BufOp
  | send : SendRule → List Nat → BufOp
  | send_filtered : SendRule → Nat → List Nat → BufOp

/-- Dispatch of one buffer operation. -/
def TakenBuffers.applyOp (tb : TakenBuffers) : BufOp → TakenBuffers
  | .addOverhead n => tb.addOverhead n
  | .send rule buf => tb.send rule buf
  | .send_filtered rule changed buf => tb.send_filtered rule changed buf

/-- One logical message: the operations performed for it (overhead
registration and sends), followed by one `fragment()` call — the usage
pattern of the world-iteration send path (`src/src/iter.rs` lines 98-121:
`overhead`, header `send`, per-bundle `send`s, terminator `send`,
`fragment`). -/
structure Round where
  ops : List BufOp

/-- Run one message round: the operations, then `fragment()`. -/
def runRound (tb : TakenBuffers) (r : Round) : TakenBuffers :=
  (r.ops.foldl TakenBuffers.applyOp tb).fragment

/-- Run a sequence of message rounds. -/
def runRounds (tb : TakenBuffers) (rs : List Round) : TakenBuffers :=
  rs.foldl runRound tb

/-- The filter condition of `send_filtered` for a fixed recipient. -/
def sendCond (this_run : Nat) (destination : Identity) (last_ack : Option Nat)
    (rule : SendRule) (changed : Nat) : Bool :=
  rule.includes destination
    && (last_ack.isNone || isNewerThan changed (last_ack.getD 0) this_run)

/-- The bytes a single operation appends to a fixed recipient's buffer. -/
def opAppend (this_run : Nat) (destination : Identity) (last_ack : Option Nat) :
    BufOp → List Nat
  | .addOverhead _ => []
  | .send rule buf =>
    if sendCond this_run destination last_ack rule this_run then buf else []
  | .send_filtered rule changed buf =>
    if sendCond this_run destination last_ack rule changed then buf else []

/-- The bytes one round appends to a fixed recipient's buffer: its logical
message for that recipient. -/
def roundMsg (this_run : Nat) (destination : Identity) (last_ack : Option Nat)
    (r : Round) : List Nat :=
  (r.ops.map (opAppend this_run destination last_ack)).flatten

/-- Well-formedness of a list of emitted packets for one recipient: each
packet is for that destination, consists of the tick prefix followed by a
concatenation of whole messages drawn from `msgs`, and its payload is
within the cap or within `THRESHOLD + M` (where `M` bounds a single
message's size). -/
def packetsOk (tick : List Nat) (dest : Identity) (msgs : List (List Nat)) (M : Nat)
    (ps : List (Identity × List Nat)) : Prop :=
  ∀ p ∈ ps, p.1 = dest ∧ ∃ l : List (List Nat), p.2 = tick ++ l.flatten
    ∧ (∀ m ∈ l, m ∈ msgs)
    ∧ (l.flatten.length ≤ CAP ∨ l.flatten.length ≤ THRESHOLD + M)

/-- Invariant of a single-recipient `TakenBuffers` between rounds: the
buffer is a concatenation of whole pending messages, the recorded fragment
point is the byte length of a prefix of them and is under the low-water
mark, the buffer holds at most `THRESHOLD` bytes, and every packet emitted
so far is well-formed. -/
def bufInv (this_run : Nat) (tick : List Nat) (dest : Identity) (last_ack : Option Nat)
    (msgs : List (List Nat)) (M : Nat) (tb : TakenBuffers) : Prop :=
  tb.this_run = this_run ∧ tb.tick = tick
  ∧ (∃ pending : List (List Nat), ∃ k : Nat,
      tb.taken = [⟨dest, last_ack, pending.flatten, (pending.take k).flatten.length⟩]
      ∧ k ≤ pending.length
      ∧ (∀ m ∈ pending, m ∈ msgs)
      ∧ (pending.take k).flatten.length < THRESHOLD
      ∧ pending.flatten.length ≤ THRESHOLD)
  ∧ packetsOk tick dest msgs M tb.filled

/-!
Section: Packet-id assignment (`src/src/lib.rs`, `generate_ids`, lines 1105-1142)

At startup, per direction, the registered bundles are collected from the
registry hash map (in arbitrary order), sorted by their stable `type_path`
string, and numbered with a counter `i` that is incremented BEFORE each
assignment (so ids start at 1); the registered events are then sorted by
path and numbered continuing with the same counter.  The handler table
(`Handlers::with_capacity`, lines 1004-1011) starts with packet id 0 mapped
to `handle_despawns` and then receives the bundle and event handlers under
their assigned ids.
-/

/-- Comparison on stable type paths, used for
`sort_by(|a, b| a.path.cmp(b.path))`.  Paths are modelled as elements of a
linearly ordered set of names (`Nat`): only the linear order on the stable
`&'static str` path matters to `generate_ids` (string literals do not
kernel-reduce in Lean, but the sorting logic is order-generic). -/
def pathLe (a b : Nat) : Bool := decide (a ≤ b)

/-- The numbering loop of `generate_ids`: `i += 1` before each assignment,
walking a (sorted) path list. -/
def numberFrom (i : Nat) : List Nat → List (Nat × Nat)
  | [] => []
  | p :: rest => (p, i + 1) :: numberFrom (i + 1) rest

/-- Embedding of `generate_ids` for one direction, taking the bundle and
event path lists in registry iteration order: sort bundles by path, number
from 1; sort events by path, number continuing after the bundles. -/
def generate_ids (bundles events : List Nat) :
    List (Nat × Nat) × List (Nat × Nat) :=
  (numberFrom 0 (bundles.mergeSort pathLe),
    numberFrom bundles.length (events.mergeSort pathLe))

/-- Modelled from the claim's words, for comparison with the source: sort
ALL registered types (bundles and events together) by their stable path and
number sequentially from 1 in that merged sorted order. -/
def generateIdsMergedSpec (bundles events : List Nat) : List (Nat × Nat) :=
  numberFrom 0 ((bundles ++ events).mergeSort pathLe)

/-- Handlers as routed by the dispatch table. -/
inductive HandlerTag where
  | despawnHandler : HandlerTag
  | bundleHandler : Nat → HandlerTag
  | eventHandler : Nat → HandlerTag
deriving DecidableEq, Repr

/-- `HashMap::insert` on the handler table. -/
def insertHandler : List (Nat × HandlerTag) → Nat → HandlerTag → List (Nat × HandlerTag)
  | [], i, h => [(i, h)]
  | (k, v) :: rest, i, h =>
    if k = i then (k, h) :: rest else (k, v) :: insertHandler rest i h

/-- Lookup in the handler table. -/
def lookupHandler : List (Nat × HandlerTag) → Nat → Option HandlerTag
  | [], _ => none
  | (k, v) :: rest, i => if k = i then some v else lookupHandler rest i

/-- `Handlers::with_capacity` (`src/src/lib.rs` lines 1004-1011): the fresh
table maps packet id 0 to the despawn handler. -/
def handlersWithCapacity : List (Nat × HandlerTag) := [(0, HandlerTag.despawnHandler)]

/-- The handler table built by `generate_ids`: despawn at 0, then every
bundle and event handler inserted under its assigned id. -/
def buildHandlers (bundles events : List Nat) : List (Nat × HandlerTag) :=
  ((generate_ids bundles events).2.foldl
    (fun h p => insertHandler h p.2 (.eventHandler p.1))
    ((generate_ids bundles events).1.foldl
      (fun h p => insertHandler h p.2 (.bundleHandler p.1))
      handlersWithCapacity))

/-!
Section: Packet processing (`src/src/lib.rs`, `Handlers::process`, lines 1015-1035)

`process` reads a 4-byte little-endian tick from the packet (returning if
the packet is shorter), then loops: read one packet-id byte (stop when the
cursor is exhausted), look up its handler (stop when none is registered),
and run the handler on the rest of the cursor.  Handlers are abstracted as
functions from the tick, the state and the remaining bytes to the new state
and the number of bytes consumed (an `io::Cursor` only advances).  The loop
is embedded with fuel: each iteration consumes at least the id byte, so
`length + 1` fuel at the call site is never exhausted. -/

/-- Little-endian `u32` from the first four bytes. -/
def fromLeBytes (b : List Nat) : Nat :=
  match b with
  | b0 :: b1 :: b2 :: b3 :: _ => b0 + 256 * b1 + 65536 * b2 + 16777216 * b3
  | _ => 0

/-- The message loop of `Handlers::process`. -/
def processLoop {σ : Type} (h : Nat → Option (Nat → σ → List Nat → σ × Nat)) (tick : Nat) :
    Nat → σ → List Nat → σ
  | 0, s, _ => s
  | _ + 1, s, [] => s
  | fuel + 1, s, pid :: rest =>
    match h pid with
    | none => s
    | some f =>
      let r := f tick s rest
      processLoop h tick fuel r.1 (rest.drop r.2)

/-- Embedding of `Handlers::process`: packets shorter than the 4-byte tick
header are ignored entirely; otherwise the tick is parsed and the message
loop runs on the remaining bytes. -/
def Handlers.process {σ : Type} (h : Nat → Option (Nat → σ → List Nat → σ × Nat))
    (s : σ) (b : List Nat) : σ :=
  if b.length < 4 then s
  else processLoop h (fromLeBytes (b.take 4)) (b.length + 1) s (b.drop 4)

/-- C3: `IdentifierMap::get(id, t)` returns `Err(Despawned)` iff the map
holds a tombstone `Despawned(d)` for `id` with `d < t`; when `d ≥ t` the
stored (despawned) status is still returned as `Ok`; an identifier that was
never tracked yields `Err(NonExistent)`; and a live identifier always
resolves `Ok(Alive)`. -/
theorem identifierMap_get_spec (m : IdentifierMap) (ident : Identifier) (t : Nat) :
    (m.get ident t = .error .Despawned ↔
      ∃ d, lookupIdent m.from_id ident = some (.Despawned d) ∧ d < t)
    ∧ (∀ d, lookupIdent m.from_id ident = some (.Despawned d) → t ≤ d →
        m.get ident t = .ok (.Despawned d))
    ∧ (lookupIdent m.from_id ident = none → m.get ident t = .error .NonExistent)
    ∧ (∀ e, lookupIdent m.from_id ident = some (.Alive e) →
        m.get ident t = .ok (.Alive e)) := by
  unfold IdentifierMap.get
  refine ⟨?_, ?_, ?_, ?_⟩
  · constructor
    · intro h
      cases hs : lookupIdent m.from_id ident with
      | none => simp [hs] at h
      | some v =>
        cases v with
        | Alive e => simp [hs] at h
        | Despawned d =>
          refine ⟨d, rfl, ?_⟩
          by_contra hd
          simp [hs, hd] at h
    · rintro ⟨d, hd, hlt⟩
      simp [hd, hlt]
  · intro d hd hle
    have : ¬ d < t := Nat.not_lt.mpr hle
    simp [hd, this]
  · intro h
    simp [h]
  · intro e he
    simp [he]

/-- Witness for C3 at a concrete map: a tombstone at tick 5 queried at
tick 5 (not strictly newer) still resolves as the stored status. -/
theorem identifierMap_get_spec_witness :
    IdentifierMap.get ⟨[(⟨1, 7⟩, .Despawned 5)]⟩ ⟨1, 7⟩ 5 = .ok (.Despawned 5) :=
  (identifierMap_get_spec ⟨[(⟨1, 7⟩, .Despawned 5)]⟩ ⟨1, 7⟩ 5).2.1 5 (by decide) (by decide)

/-- Helper: an update from client `Q` against an entity whose authority is
held by a different client `P` is rejected without any state change
(`apply_changes` returns before any insertion when `can_claim` fails). -/
theorem applyExisting_reject_other (upd : Nat → Nat → Nat) (Q t : Nat) (vals : List Nat)
    (s : EntityState) (P : Nat) (h : s.authority = some (.Client P)) (hne : Q ≠ P) :
    applyExisting upd (.Client Q) t vals s = s := by
  unfold applyExisting
  by_cases hst : t ≤ s.lastUpdateBundle.getD 0
  · simp [hst]
  · have hclaim : Authority.can_claim (s.authority.getD .Server) Q = false := by
      rw [h]
      simp only [Option.getD_some, Authority.can_claim]
      exact beq_eq_false_iff_ne.mpr (fun habs => hne habs.symm)
    simp [hst, hclaim]

/-- Helper: an accepted client update sets `Authority::Client(client_id)`
and `LastUpdate<Self> = tick`. -/
theorem applyExisting_client_accept (upd : Nat → Nat → Nat) (P t : Nat) (vals : List Nat)
    (s : EntityState) (hTick : s.lastUpdateBundle.getD 0 < t)
    (hclaim : Authority.can_claim (s.authority.getD .Server) P = true) :
    (applyExisting upd (.Client P) t vals s).authority = some (.Client P)
    ∧ (applyExisting upd (.Client P) t vals s).lastUpdateBundle = some t := by
  have hst : ¬ t ≤ s.lastUpdateBundle.getD 0 := Nat.not_le.mpr hTick
  unfold applyExisting
  simp only [hst, if_false, hclaim, if_true]
  by_cases he : s.lastUpdateEntity.getD 0 < t <;> simp [he]

/-- C1: on an entity-update from `Client(P)` at a tick strictly newer than
the bundle's last-applied tick: `Free` authority accepts and becomes
`Client(P)`; `Client(P)` accepts and stays; `Client(Q)` with `Q ≠ P`
rejects with no state change; `Server` (explicit or by default when the
component is absent) rejects with no state change.  Consequently, starting
from `Free`, after the first accepted claim all later claim attempts by
other peers (any tick, any payload) leave the state exactly as the first
claim left it. -/
theorem authority_claim_spec (upd : Nat → Nat → Nat) (P t : Nat) (vals : List Nat)
    (st : EntityState) (hTick : st.lastUpdateBundle.getD 0 < t) :
    (st.authority = some .Free →
      (applyExisting upd (.Client P) t vals st).authority = some (.Client P)
      ∧ (applyExisting upd (.Client P) t vals st).lastUpdateBundle = some t)
    ∧ (st.authority = some (.Client P) →
      (applyExisting upd (.Client P) t vals st).authority = some (.Client P)
      ∧ (applyExisting upd (.Client P) t vals st).lastUpdateBundle = some t)
    ∧ (∀ Q, Q ≠ P → st.authority = some (.Client Q) →
      applyExisting upd (.Client P) t vals st = st)
    ∧ ((st.authority = some .Server ∨ st.authority = none) →
      applyExisting upd (.Client P) t vals st = st)
    ∧ (st.authority = some .Free →
      ∀ attempts : List (Nat × Nat × List Nat),
        (∀ a ∈ attempts, a.1 ≠ P) →
        attempts.foldl (fun s a => applyExisting upd (.Client a.1) a.2.1 a.2.2 s)
            (applyExisting upd (.Client P) t vals st)
          = applyExisting upd (.Client P) t vals st) := by
  have hst : ¬ t ≤ st.lastUpdateBundle.getD 0 := Nat.not_le.mpr hTick
  refine ⟨?_, ?_, ?_, ?_, ?_⟩
  · intro hfree
    exact applyExisting_client_accept upd P t vals st hTick (by rw [hfree]; rfl)
  · intro hcl
    exact applyExisting_client_accept upd P t vals st hTick
      (by rw [hcl]; simp [Authority.can_claim])
  · intro Q hne hcl
    exact applyExisting_reject_other upd P t vals st Q hcl (fun habs => hne habs.symm)
  · intro hsrv
    have hclaim : Authority.can_claim (st.authority.getD .Server) P = false := by
      rcases hsrv with h | h <;> rw [h] <;> rfl
    unfold applyExisting
    simp [hst, hclaim]
  · intro hfree attempts hothers
    have hP : (applyExisting upd (.Client P) t vals st).authority = some (.Client P) :=
      (applyExisting_client_accept upd P t vals st hTick (by rw [hfree]; rfl)).1
    generalize hs1 : applyExisting upd (.Client P) t vals st = s1 at hP ⊢
    clear hs1
    induction attempts with
    | nil => rfl
    | cons a rest ih =>
      have hrej : applyExisting upd (.Client a.1) a.2.1 a.2.2 s1 = s1 :=
        applyExisting_reject_other upd a.1 a.2.1 a.2.2 s1 P hP
          (hothers a (List.mem_cons_self a rest))
      simp only [List.foldl_cons, hrej]
      exact ih fun b hb => hothers b (List.mem_cons_of_mem a hb)

/-- Witness for C1, at the spec's example scenario: authority `Free`,
last-applied tick 3, update from peer 9 at tick 4 — accepted, and
authority becomes `Client(9)`. -/
theorem authority_claim_spec_witness :
    (applyExisting overwriteUpdate (.Client 9) 4 [8]
        ⟨some .Free, some 3, some 3, [⟨none, some 5⟩]⟩).authority = some (.Client 9)
    ∧ (applyExisting overwriteUpdate (.Client 9) 4 [8]
        ⟨some .Free, some 3, some 3, [⟨none, some 5⟩]⟩).lastUpdateBundle = some 4 :=
  (authority_claim_spec overwriteUpdate 9 4 [8]
    ⟨some .Free, some 3, some 3, [⟨none, some 5⟩]⟩ (by decide)).1 rfl

/-- Helper: a stale update (tick not strictly newer than `LastUpdate<Self>`)
returns the entity state unchanged. -/
theorem applyExisting_stale (upd : Nat → Nat → Nat) (sender : Identity) (t : Nat)
    (vals : List Nat) (st : EntityState) (h : t ≤ st.lastUpdateBundle.getD 0) :
    applyExisting upd sender t vals st = st := by
  unfold applyExisting; simp [h]

/-- Helper: an accepted update applies each received value to its slot via
`applyComp` and records `LastUpdate<Self> = tick`; the authority component
is untouched by a server sender. -/
theorem applyExisting_accept_fields (upd : Nat → Nat → Nat) (sender : Identity) (t : Nat)
    (vals : List Nat) (st : EntityState)
    (hTick : st.lastUpdateBundle.getD 0 < t)
    (hAuth : ∀ c, sender = Identity.Client c →
      (st.authority.getD .Server).can_claim c = true) :
    (applyExisting upd sender t vals st).comps
      = List.zipWith (applyComp upd t) st.comps vals
    ∧ (applyExisting upd sender t vals st).lastUpdateBundle = some t
    ∧ (sender = .Server →
      (applyExisting upd sender t vals st).authority = st.authority) := by
  have hst : ¬ t ≤ st.lastUpdateBundle.getD 0 := Nat.not_le.mpr hTick
  unfold applyExisting
  cases sender with
  | Server =>
    simp only [hst, if_false]
    by_cases he : st.lastUpdateEntity.getD 0 < t <;> simp [he]
  | Client c =>
    have hclaim := hAuth c rfl
    simp only [hst, if_false, hclaim, if_true]
    by_cases he : st.lastUpdateEntity.getD 0 < t <;> simp [he]

/-- C10: for an accepted update on an existing entity, the received values
are routed by `applyComp`: a field with a `Remote<T>` container stores the
received value together with the message tick into the container and the
direct component is left unchanged; only when no `Remote<T>` is present is
the direct component overwritten/merged via the update function, or
inserted when absent. -/
theorem remote_component_routing (upd : Nat → Nat → Nat) (sender : Identity) (t : Nat)
    (vals : List Nat) (st : EntityState)
    (hTick : st.lastUpdateBundle.getD 0 < t)
    (hAuth : ∀ c, sender = Identity.Client c →
      (st.authority.getD .Server).can_claim c = true) :
    (applyExisting upd sender t vals st).comps
      = List.zipWith (applyComp upd t) st.comps vals
    ∧ (∀ slot v r, slot.remote = some r →
      applyComp upd t slot v = { remote := some (v, t), direct := slot.direct })
    ∧ (∀ slot v c, slot.remote = none → slot.direct = some c →
      applyComp upd t slot v = { remote := none, direct := some (upd c v) })
    ∧ (∀ slot v, slot.remote = none → slot.direct = none →
      applyComp upd t slot v = { remote := none, direct := some v }) := by
  refine ⟨(applyExisting_accept_fields upd sender t vals st hTick hAuth).1, ?_, ?_, ?_⟩
  · intro slot v r hr
    cases slot with
    | mk rem dir => cases hr; rfl
  · intro slot v c hr hd
    cases slot with
    | mk rem dir => cases hr; cases hd; rfl
  · intro slot v hr hd
    cases slot with
    | mk rem dir => cases hr; cases hd; rfl

/-- Witness for C10: one field with a `Remote` container (holding `(1, 2)`)
and direct value `42`; a server update at tick 5 with value 7 stores
`(7, 5)` in the container and leaves the direct value at `42`. -/
theorem remote_component_routing_witness :
    (applyExisting overwriteUpdate .Server 5 [7]
        ⟨none, some 0, none, [⟨some (1, 2), some 42⟩]⟩).comps
      = List.zipWith (applyComp overwriteUpdate 5) [⟨some (1, 2), some 42⟩] [7]
    ∧ applyComp overwriteUpdate 5 ⟨some (1, 2), some 42⟩ 7
      = { remote := some (7, 5), direct := some 42 } := by
  have h := remote_component_routing overwriteUpdate .Server 5 [7]
    ⟨none, some 0, none, [⟨some (1, 2), some 42⟩]⟩ (by decide) (by intro c hc; cases hc)
  exact ⟨h.1, h.2.1 ⟨some (1, 2), some 42⟩ 7 (1, 2) rfl⟩

/-- Helper: `HashMap::insert` followed by lookup of the same key. -/
theorem lookupEnt_insertEnt_self (l : List (Nat × EntityState)) (e : Nat) (st : EntityState) :
    lookupEnt (insertEnt l e st) e = some st := by
  induction l with
  | nil => simp [insertEnt, lookupEnt]
  | cons kv rest ih =>
    obtain ⟨k, v⟩ := kv
    by_cases hk : k = e
    · subst hk; simp [insertEnt, lookupEnt]
    · simp [insertEnt, lookupEnt, hk, ih]

/-- Helper: re-inserting the value already stored at a key is a no-op. -/
theorem insertEnt_self (l : List (Nat × EntityState)) (e : Nat) (st : EntityState)
    (h : lookupEnt l e = some st) : insertEnt l e st = l := by
  induction l with
  | nil => simp [lookupEnt] at h
  | cons kv rest ih =>
    obtain ⟨k, v⟩ := kv
    by_cases hk : k = e
    · subst hk
      simp only [lookupEnt, if_true, eq_self_iff_true, Option.some.injEq] at h
      simp [insertEnt, h]
    · simp only [lookupEnt, if_neg hk] at h
      simp [insertEnt, hk, ih h]

/-- Helper: composing two default-overwrite component applications keeps
only the newer value and tick. -/
theorem applyComp_overwrite_compose (t1 t2 : Nat) (slot : CompSlot) (v1 v2 : Nat) :
    applyComp overwriteUpdate t2 (applyComp overwriteUpdate t1 slot v1) v2
      = applyComp overwriteUpdate t2 slot v2 := by
  cases slot with
  | mk rem dir => cases rem <;> cases dir <;> rfl

/-- Helper: the zipWith form of `applyComp_overwrite_compose`. -/
theorem zipWith_applyComp_compose (t1 t2 : Nat) :
    ∀ (c : List CompSlot) (v1 v2 : List Nat), v1.length = c.length →
      List.zipWith (applyComp overwriteUpdate t2)
          (List.zipWith (applyComp overwriteUpdate t1) c v1) v2
        = List.zipWith (applyComp overwriteUpdate t2) c v2 := by
  intro c
  induction c with
  | nil => intro v1 v2 _; simp
  | cons s cs ih =>
    intro v1 v2 h
    cases v1 with
    | nil => simp at h
    | cons x xs =>
      cases v2 with
      | nil => simp
      | cons y ys =>
        simp only [List.zipWith]
        rw [applyComp_overwrite_compose, ih xs ys (by simpa using h)]

/-- Helper: explicit form of an accepted server-sent update. -/
theorem applyExisting_server_accept_eq (upd : Nat → Nat → Nat) (t : Nat)
    (vals : List Nat) (st : EntityState) (h : st.lastUpdateBundle.getD 0 < t) :
    applyExisting upd .Server t vals st =
      { authority := st.authority
        lastUpdateBundle := some t
        lastUpdateEntity :=
          if st.lastUpdateEntity.getD 0 < t then some t else st.lastUpdateEntity
        comps := List.zipWith (applyComp upd t) st.comps vals } := by
  unfold applyExisting
  simp only [Nat.not_le.mpr h, if_false]
  by_cases he : st.lastUpdateEntity.getD 0 < t <;> simp [he]

/-- Helper: with the macro's default overwrite update function, applying the
older of two updates after the newer one, or before it, yields the same
state as applying only the newer one. -/
theorem applyExisting_overwrite_monotone (t1 t2 : Nat) (v1 v2 : List Nat)
    (st : EntityState) (h12 : t1 < t2) (hl1 : v1.length = st.comps.length) :
    applyExisting overwriteUpdate .Server t1 v1
        (applyExisting overwriteUpdate .Server t2 v2 st)
      = applyExisting overwriteUpdate .Server t2 v2 st
    ∧ applyExisting overwriteUpdate .Server t2 v2
        (applyExisting overwriteUpdate .Server t1 v1 st)
      = applyExisting overwriteUpdate .Server t2 v2 st := by
  constructor
  · by_cases h2 : t2 ≤ st.lastUpdateBundle.getD 0
    · rw [applyExisting_stale _ _ _ _ _ h2]
      exact applyExisting_stale _ _ _ _ _ (le_trans (Nat.le_of_lt h12) h2)
    · have hacc := applyExisting_accept_fields overwriteUpdate .Server t2 v2 st
        (Nat.lt_of_not_le h2) (by intro c hc; cases hc)
      exact applyExisting_stale _ _ _ _ _ (by rw [hacc.2.1]; exact Nat.le_of_lt h12)
  · by_cases h1 : t1 ≤ st.lastUpdateBundle.getD 0
    · rw [applyExisting_stale _ _ _ _ _ h1]
    · have ht1 : st.lastUpdateBundle.getD 0 < t1 := Nat.lt_of_not_le h1
      have ht2 : st.lastUpdateBundle.getD 0 < t2 := Nat.lt_trans ht1 h12
      rw [applyExisting_server_accept_eq overwriteUpdate t1 v1 st ht1,
        applyExisting_server_accept_eq overwriteUpdate t2 v2 st ht2,
        applyExisting_server_accept_eq overwriteUpdate t2 v2 _ (by simpa using h12)]
      simp only [EntityState.mk.injEq, true_and]
      refine ⟨?_, zipWith_applyComp_compose t1 t2 st.comps v1 v2 hl1⟩
      by_cases he1 : st.lastUpdateEntity.getD 0 < t1
      · simp [he1, h12, Nat.lt_trans he1 h12]
      · simp [he1]

/-- C2: a received entity-update whose tick is not strictly newer than the
entity's stored `LastUpdate` for the bundle still consumes the message's
serialized bytes from the packet cursor (identifier plus all component
values) but changes nothing in the world; and, with the macro's default
overwrite update, applying two updates with ticks `t1 < t2` in either
arrival order leaves exactly the state produced by the `t2` update. -/
theorem stale_update_consume_no_apply :
    (∀ (n : Nat) (upd : Nat → Nat → Nat) (sender : Identity) (t : Nat) (w : SimWorld)
      (etype idv e : Nat) (st : EntityState) (payload rest : List Nat),
      lookupIdent w.map ⟨etype, idv⟩ = some (.Alive e) →
      lookupEnt w.ents e = some st →
      t ≤ st.lastUpdateBundle.getD 0 →
      payload.length = n →
      applyChanges n upd sender t w (etype :: idv :: (payload ++ rest)) = (w, rest))
    ∧ (∀ (t1 t2 : Nat) (v1 v2 : List Nat) (st : EntityState),
      t1 < t2 → v1.length = st.comps.length →
      applyExisting overwriteUpdate .Server t1 v1
          (applyExisting overwriteUpdate .Server t2 v2 st)
        = applyExisting overwriteUpdate .Server t2 v2 st
      ∧ applyExisting overwriteUpdate .Server t2 v2
          (applyExisting overwriteUpdate .Server t1 v1 st)
        = applyExisting overwriteUpdate .Server t2 v2 st) := by
  constructor
  · intro n upd sender t w etype idv e st payload rest hmap hent hstale hlen
    have hget : IdentifierMap.get ⟨w.map⟩ ⟨etype, idv⟩ t = .ok (.Alive e) := by
      unfold IdentifierMap.get
      simp [hmap]
    unfold applyChanges
    simp only [hget]
    have hlenle : n ≤ (payload ++ rest).length := by
      rw [List.length_append, hlen]
      exact Nat.le_add_right n rest.length
    simp only [hlenle, if_true]
    subst hlen
    rw [List.take_left, List.drop_left]
    unfold applyUpdateCore
    simp only [hent]
    rw [applyExisting_stale upd sender t payload st hstale, insertEnt_self w.ents e st hent]
  · intro t1 t2 v1 v2 st h12 hl1
    exact applyExisting_overwrite_monotone t1 t2 v1 v2 st h12 hl1

/-- Witness for C2: a world with one entity whose bundle was last applied
at tick 5; a stale message at tick 5 consumes its three cursor tokens and
leaves the world untouched; and tick-3 data applied after tick-4 data is a
no-op. -/
theorem stale_update_consume_no_apply_witness :
    applyChanges 1 overwriteUpdate .Server 5
        ⟨[(⟨1, 1⟩, .Alive 0)], [(0, ⟨none, some 5, some 5, [⟨none, some 9⟩]⟩)], 1⟩
        (1 :: 1 :: ([3] ++ [2, 7]))
      = (⟨[(⟨1, 1⟩, .Alive 0)], [(0, ⟨none, some 5, some 5, [⟨none, some 9⟩]⟩)], 1⟩, [2, 7])
    ∧ applyExisting overwriteUpdate .Server 3 [1]
        (applyExisting overwriteUpdate .Server 4 [2] ⟨none, none, none, [⟨none, none⟩]⟩)
      = applyExisting overwriteUpdate .Server 4 [2] ⟨none, none, none, [⟨none, none⟩]⟩ :=
  ⟨stale_update_consume_no_apply.1 1 overwriteUpdate .Server 5
      ⟨[(⟨1, 1⟩, .Alive 0)], [(0, ⟨none, some 5, some 5, [⟨none, some 9⟩]⟩)], 1⟩
      1 1 0 ⟨none, some 5, some 5, [⟨none, some 9⟩]⟩ [3] [2, 7]
      (by decide) (by decide) (by decide) rfl,
    (stale_update_consume_no_apply.2 3 4 [1] [2] ⟨none, none, none, [⟨none, none⟩]⟩
      (by decide) (by decide)).1⟩

/-- Helper: lookup after insert of the same identifier. -/
theorem lookupIdent_insertIdent_self (l : List (Identifier × EntityStatus))
    (i : Identifier) (v : EntityStatus) :
    lookupIdent (insertIdent l i v) i = some v := by
  induction l with
  | nil => simp [insertIdent, lookupIdent]
  | cons kv rest ih =>
    obtain ⟨k, w⟩ := kv
    by_cases hk : k = i
    · subst hk; simp [insertIdent, lookupIdent]
    · simp [insertIdent, lookupIdent, hk, ih]

/-- Helper: a key absent from the table looks up to `none`. -/
theorem lookupEnt_eq_none_of_not_mem (l : List (Nat × EntityState)) (e : Nat)
    (h : e ∉ l.map Prod.fst) : lookupEnt l e = none := by
  induction l with
  | nil => rfl
  | cons kv rest ih =>
    obtain ⟨k, v⟩ := kv
    simp only [List.map_cons, List.mem_cons] at h
    push_neg at h
    have hk : ¬ k = e := fun hk => h.1 hk.symm
    simp [lookupEnt, hk, ih h.2]

/-- Helper: with duplicate-free keys, removing a key makes it unresolvable. -/
theorem lookupEnt_removeEnt_self (l : List (Nat × EntityState)) (e : Nat)
    (h : (l.map Prod.fst).Nodup) : lookupEnt (removeEnt l e) e = none := by
  induction l with
  | nil => rfl
  | cons kv rest ih =>
    obtain ⟨k, v⟩ := kv
    simp only [List.map_cons, List.nodup_cons] at h
    by_cases hk : k = e
    · subst hk
      simp only [removeEnt, if_pos rfl]
      exact lookupEnt_eq_none_of_not_mem rest k h.1
    · simp [removeEnt, hk, lookupEnt, ih h.2]

/-- Helper: keys of an insert come from the old keys or are the new key. -/
theorem mem_keys_insertEnt (l : List (Nat × EntityState)) (e x : Nat) (st : EntityState)
    (h : x ∈ (insertEnt l e st).map Prod.fst) : x ∈ l.map Prod.fst ∨ x = e := by
  induction l with
  | nil =>
    simp only [insertEnt, List.map_cons, List.map_nil, List.mem_singleton] at h
    exact Or.inr h
  | cons kv rest ih =>
    obtain ⟨k, v⟩ := kv
    by_cases hk : k = e
    · subst hk
      simp only [insertEnt, if_true, eq_self_iff_true, List.map_cons, List.mem_cons] at h
      rw [List.map_cons, List.mem_cons]
      exact Or.inl h
    · simp only [insertEnt, if_neg hk, List.map_cons, List.mem_cons] at h
      rw [List.map_cons, List.mem_cons]
      rcases h with h | h
      · exact Or.inl (Or.inl h)
      · rcases ih h with h2 | h2
        · exact Or.inl (Or.inr h2)
        · exact Or.inr h2

/-- Helper: insert preserves duplicate-freeness of the keys. -/
theorem nodup_keys_insertEnt (l : List (Nat × EntityState)) (e : Nat) (st : EntityState)
    (h : (l.map Prod.fst).Nodup) : ((insertEnt l e st).map Prod.fst).Nodup := by
  induction l with
  | nil => simp [insertEnt]
  | cons kv rest ih =>
    obtain ⟨k, v⟩ := kv
    simp only [List.map_cons, List.nodup_cons] at h
    by_cases hk : k = e
    · subst hk
      simp only [insertEnt, if_true, eq_self_iff_true, List.map_cons, List.nodup_cons]
      exact ⟨h.1, h.2⟩
    · simp only [insertEnt, if_neg hk, List.map_cons, List.nodup_cons]
      refine ⟨?_, ih h.2⟩
      intro habs
      rcases mem_keys_insertEnt rest e k st habs with h2 | h2
      · exact h.1 h2
      · exact hk h2

/-- Helper: applying received values to slots that have no `Remote`
containers produces exactly the direct values with no containers. -/
theorem zipWith_applyComp_fresh (t : Nat) :
    ∀ (c : List CompSlot) (v : List Nat), (∀ s ∈ c, s.remote = none) →
      v.length = c.length →
      List.zipWith (applyComp overwriteUpdate t) c v
        = v.map (fun x => { remote := none, direct := some x }) := by
  intro c
  induction c with
  | nil =>
    intro v _ hl
    rw [List.length_nil, List.length_eq_zero] at hl
    subst hl
    rfl
  | cons s cs ih =>
    intro v h hl
    cases v with
    | nil => simp at hl
    | cons x xs =>
      have hs : s.remote = none := h s (List.mem_cons_self s cs)
      have hone : applyComp overwriteUpdate t s x = { remote := none, direct := some x } := by
        cases s with
        | mk rem dir =>
          cases hs
          cases dir <;> rfl
      simp only [List.zipWith, List.map, hone, List.cons.injEq, true_and]
      exact ih xs (fun a ha => h a (List.mem_cons_of_mem s ha)) (by simpa using hl)

/-- C4: a received despawn destroys the object and records the tombstone
iff the identifier resolves alive at its tick, the sender is the server or
can claim authority, and the tick is not older than the ungrouped
`LastUpdate<()>`; and a despawn at `t_d` and a server entity-update at
`t_u` applied in either order leave the object despawned iff `t_u ≤ t_d`
and alive with the update applied iff `t_u > t_d`. -/
theorem despawn_ordering_spec :
    (∀ (sender : Identity) (t : Nat) (identifier : Identifier) (w : SimWorld)
      (e : Nat) (st : EntityState),
      IdentifierMap.get ⟨w.map⟩ identifier t = .ok (.Alive e) →
      lookupEnt w.ents e = some st →
      ((sender = .Server → st.lastUpdateEntity.getD 0 ≤ t →
        handleDespawn sender t identifier w
          = ⟨insertIdent w.map identifier (.Despawned t), removeEnt w.ents e, w.nextEnt⟩)
      ∧ (∀ c, sender = .Client c → (st.authority.getD .Server).can_claim c = true →
          st.lastUpdateEntity.getD 0 ≤ t →
          handleDespawn sender t identifier w
            = ⟨insertIdent w.map identifier (.Despawned t), removeEnt w.ents e, w.nextEnt⟩)
      ∧ (∀ c, sender = .Client c → (st.authority.getD .Server).can_claim c = false →
          handleDespawn sender t identifier w = w)
      ∧ (t < st.lastUpdateEntity.getD 0 → handleDespawn sender t identifier w = w)))
    ∧ (∀ (sender : Identity) (t : Nat) (identifier : Identifier) (w : SimWorld),
      (∀ e, IdentifierMap.get ⟨w.map⟩ identifier t ≠ .ok (.Alive e)) →
      handleDespawn sender t identifier w = w)
    ∧ (∀ (w : SimWorld) (identifier : Identifier) (e : Nat) (st : EntityState)
      (vals : List Nat) (tu td : Nat),
      lookupIdent w.map identifier = some (.Alive e) →
      lookupEnt w.ents e = some st →
      (w.ents.map Prod.fst).Nodup →
      st.lastUpdateBundle.getD 0 < tu →
      st.lastUpdateEntity.getD 0 < tu →
      st.lastUpdateEntity.getD 0 ≤ td →
      (∀ s ∈ st.comps, s.remote = none) →
      vals.length = st.comps.length →
      (tu ≤ td →
        despawnedState (handleDespawn .Server td identifier
          (applyUpdateWorld overwriteUpdate .Server tu identifier vals w)) identifier e td
        ∧ despawnedState (applyUpdateWorld overwriteUpdate .Server tu identifier vals
          (handleDespawn .Server td identifier w)) identifier e td)
      ∧ (td < tu →
        aliveUpdated (handleDespawn .Server td identifier
          (applyUpdateWorld overwriteUpdate .Server tu identifier vals w)) identifier tu vals
        ∧ aliveUpdated (applyUpdateWorld overwriteUpdate .Server tu identifier vals
          (handleDespawn .Server td identifier w)) identifier tu vals)) := by
  refine ⟨?_, ?_, ?_⟩
  · intro sender t identifier w e st hget hent
    refine ⟨?_, ?_, ?_, ?_⟩
    · intro hsrv hle
      subst hsrv
      unfold handleDespawn
      simp [hget, hent, Nat.not_lt.mpr hle]
    · intro c hcl hclaim hle
      subst hcl
      unfold handleDespawn
      simp [hget, hent, hclaim, Nat.not_lt.mpr hle]
    · intro c hcl hclaim
      subst hcl
      unfold handleDespawn
      simp [hget, hent, hclaim]
    · intro hlt
      unfold handleDespawn
      cases sender with
      | Server => simp [hget, hent, hlt]
      | Client c =>
        by_cases hclaim : (st.authority.getD .Server).can_claim c = true
        · simp [hget, hent, hclaim, hlt]
        · simp [hget, hent, Bool.eq_false_iff.mpr hclaim]
  · intro sender t identifier w hno
    unfold handleDespawn
    cases hg : IdentifierMap.get ⟨w.map⟩ identifier t with
    | error err => rfl
    | ok status =>
      cases status with
      | Alive e => exact absurd hg (hno e)
      | Despawned d => rfl
  · intro w identifier e st vals tu td hmap hent hnodup hbt het hetd hfresh hlen
    have hgetU : IdentifierMap.get ⟨w.map⟩ identifier tu = .ok (.Alive e) := by
      unfold IdentifierMap.get; simp [hmap]
    have hgetD : IdentifierMap.get ⟨w.map⟩ identifier td = .ok (.Alive e) := by
      unfold IdentifierMap.get; simp [hmap]
    -- the updated entity state
    have hst1 : applyExisting overwriteUpdate .Server tu vals st =
        { authority := st.authority
          lastUpdateBundle := some tu
          lastUpdateEntity := some tu
          comps := vals.map (fun v => { remote := none, direct := some v }) } := by
      rw [applyExisting_server_accept_eq overwriteUpdate tu vals st hbt]
      rw [zipWith_applyComp_fresh tu st.comps vals hfresh hlen]
      simp [het]
    -- the update-first world
    have hU : applyUpdateWorld overwriteUpdate .Server tu identifier vals w =
        { w with ents := insertEnt w.ents e (applyExisting overwriteUpdate .Server tu vals st) } := by
      unfold applyUpdateWorld
      simp only [hgetU]
      unfold applyUpdateCore
      simp [hent]
    -- the despawn-first world
    have hD : handleDespawn .Server td identifier w =
        ⟨insertIdent w.map identifier (.Despawned td), removeEnt w.ents e, w.nextEnt⟩ := by
      unfold handleDespawn
      simp [hgetD, hent, Nat.not_lt.mpr hetd]
    constructor
    · intro hud
      have hnotlt : ¬ td < tu := Nat.not_lt.mpr hud
      constructor
      · -- update then despawn: despawn wins
        rw [hU, hst1]
        unfold handleDespawn despawnedState
        simp only [hgetD, lookupEnt_insertEnt_self, Option.getD_some, hnotlt, if_false,
          if_true]
        exact ⟨lookupIdent_insertIdent_self w.map identifier (.Despawned td),
          lookupEnt_removeEnt_self _ e (nodup_keys_insertEnt w.ents e _ hnodup)⟩
      · -- despawn then update: stale update is a no-op
        rw [hD]
        unfold applyUpdateWorld
        have hgetber : IdentifierMap.get ⟨insertIdent w.map identifier (.Despawned td)⟩
            identifier tu = .ok (.Despawned td) := by
          unfold IdentifierMap.get
          simp [lookupIdent_insertIdent_self, Nat.not_lt.mpr hud]
        simp only [hgetber]
        exact ⟨lookupIdent_insertIdent_self w.map identifier (.Despawned td),
          lookupEnt_removeEnt_self w.ents e hnodup⟩
    · intro hdu
      constructor
      · -- update then despawn: despawn is stale
        have hDU : handleDespawn .Server td identifier
            (applyUpdateWorld overwriteUpdate .Server tu identifier vals w)
            = applyUpdateWorld overwriteUpdate .Server tu identifier vals w := by
          rw [hU, hst1]
          unfold handleDespawn
          simp only [hgetD, lookupEnt_insertEnt_self, Option.getD_some, hdu, if_true]
        rw [hDU, hU, hst1]
        unfold aliveUpdated
        exact ⟨e, _, hmap, lookupEnt_insertEnt_self w.ents e _, rfl, rfl, rfl⟩
      · -- despawn then update: server respawns with the newer data
        rw [hD]
        unfold applyUpdateWorld
        have hgetber : IdentifierMap.get ⟨insertIdent w.map identifier (.Despawned td)⟩
            identifier tu = .error .Despawned := by
          unfold IdentifierMap.get
          simp [lookupIdent_insertIdent_self, hdu]
        simp only [hgetber]
        unfold applyUpdateCore aliveUpdated
        simp only [if_true, eq_self_iff_true]
        exact ⟨w.nextEnt, _, lookupIdent_insertIdent_self _ identifier (.Alive w.nextEnt),
          lookupEnt_insertEnt_self _ w.nextEnt _, rfl, rfl, rfl⟩

/-- Witness for C4: in a one-entity world, a tick-2 despawn followed by a
tick-5 server update leaves the object alive with the update applied. -/
theorem despawn_ordering_spec_witness :
    aliveUpdated (handleDespawn .Server 2 ⟨1, 1⟩
      (applyUpdateWorld overwriteUpdate .Server 5 ⟨1, 1⟩ [7]
        ⟨[(⟨1, 1⟩, .Alive 0)], [(0, ⟨none, some 1, some 1, [⟨none, some 9⟩]⟩)], 1⟩)) ⟨1, 1⟩ 5 [7]
    ∧ aliveUpdated (applyUpdateWorld overwriteUpdate .Server 5 ⟨1, 1⟩ [7]
      (handleDespawn .Server 2 ⟨1, 1⟩
        ⟨[(⟨1, 1⟩, .Alive 0)], [(0, ⟨none, some 1, some 1, [⟨none, some 9⟩]⟩)], 1⟩)) ⟨1, 1⟩ 5 [7] :=
  (despawn_ordering_spec.2.2 ⟨[(⟨1, 1⟩, .Alive 0)], [(0, ⟨none, some 1, some 1, [⟨none, some 9⟩]⟩)], 1⟩
    ⟨1, 1⟩ 0 ⟨none, some 1, some 1, [⟨none, some 9⟩]⟩ [7] 5 2
    (by decide) (by decide) (by decide) (by decide) (by decide) (by decide)
    (by intro s hs; simp at hs; rw [hs]) (by decide)).2 (by decide)

/-- Helper: bevy's wrapped-and-clamped change-tick comparison agrees with
plain strict order whenever neither age wraps or exceeds the clamp. -/
theorem isNewerThan_iff (self last_run this_run : Nat)
    (h1 : self ≤ this_run) (h2 : last_run ≤ this_run) (h3 : this_run < U32MOD)
    (h4 : this_run - self ≤ MAX_CHANGE_AGE) (h5 : this_run - last_run ≤ MAX_CHANGE_AGE) :
    isNewerThan self last_run this_run = true ↔ last_run < self := by
  have hrel : ∀ x, x ≤ this_run → relativeTo this_run x = this_run - x := by
    intro x hx
    unfold relativeTo
    rw [Nat.mod_eq_of_lt h3, Nat.mod_eq_of_lt (lt_of_le_of_lt hx h3)]
    have hd : this_run + U32MOD - x = U32MOD + (this_run - x) := by omega
    rw [hd, Nat.add_mod_left]
    exact Nat.mod_eq_of_lt (lt_of_le_of_lt (Nat.sub_le _ _) h3)
  unfold isNewerThan
  rw [hrel self h1, hrel last_run h2, min_eq_left h4, min_eq_left h5,
    decide_eq_true_iff]
  omega

/-- C7: `send_filtered(rule, bytes, changed)` appends the bytes to exactly
those taken buffers whose destination the rule includes and which have no
baseline or whose baseline is strictly older than `changed` (assuming the
change ticks are within bevy's change-detection window, i.e. no `u32`
wrap-around and ages at most `MAX_CHANGE_AGE`); in particular a recipient
whose baseline `b` satisfies `changed ≤ b` receives no bytes. -/
theorem send_filtered_spec (tb : TakenBuffers) (rule : SendRule) (changed : Nat)
    (buf : List Nat)
    (hrun : tb.this_run < U32MOD)
    (hch : changed ≤ tb.this_run) (hch2 : tb.this_run - changed ≤ MAX_CHANGE_AGE)
    (hack : ∀ t ∈ tb.taken, ∀ b, t.last_ack = some b →
      b ≤ tb.this_run ∧ tb.this_run - b ≤ MAX_CHANGE_AGE) :
    (tb.send_filtered rule changed buf).taken
      = tb.taken.map (fun t =>
          if rule.includes t.destination = true
              ∧ (t.last_ack = none ∨ ∃ b, t.last_ack = some b ∧ b < changed) then
            { t with buffer := t.buffer ++ buf }
          else t)
    ∧ (∀ t : TakenBuffer, ∀ b, t.last_ack = some b → changed ≤ b →
        (if rule.includes t.destination = true
            ∧ (t.last_ack = none ∨ ∃ b2, t.last_ack = some b2 ∧ b2 < changed) then
          { t with buffer := t.buffer ++ buf }
        else t) = t) := by
  constructor
  · unfold TakenBuffers.send_filtered
    simp only
    apply List.map_congr_left
    intro t ht
    cases hla : t.last_ack with
    | none =>
      by_cases hinc : rule.includes t.destination = true <;> simp [hinc, hla]
    | some b =>
      have hb := hack t ht b hla
      have hiff := isNewerThan_iff changed b tb.this_run hch hb.1 hrun hch2 hb.2
      by_cases hinc : rule.includes t.destination = true
      · by_cases hlt : b < changed
        · simp [hinc, hla, hiff.mpr hlt, hlt]
        · have hfalse : isNewerThan changed b tb.this_run = false := by
            rw [Bool.eq_false_iff]
            intro habs
            exact hlt (hiff.mp habs)
          simp [hinc, hla, hfalse, hlt]
      · simp [hinc, hla]
  · intro t b hla hle
    have : ¬ (rule.includes t.destination = true
        ∧ (t.last_ack = none ∨ ∃ b2, t.last_ack = some b2 ∧ b2 < changed)) := by
      rintro ⟨-, hc | ⟨b2, hb2, hlt⟩⟩
      · rw [hla] at hc; cases hc
      · rw [hla] at hb2
        cases hb2
        exact Nat.not_lt.mpr hle hlt
    simp [this]

/-- Witness for C7: two recipients, one with no baseline (receives the
bytes) and one with baseline 5 against a message changed at tick 3
(receives nothing). -/
theorem send_filtered_spec_witness :
    (TakenBuffers.send_filtered ⟨6, [0, 0, 0, 0],
        [⟨.Client 1, none, [], 0⟩, ⟨.Client 2, some 5, [], 0⟩], 0, []⟩ .All 3 [9]).taken
      = [⟨.Client 1, none, [9], 0⟩, ⟨.Client 2, some 5, [], 0⟩] := by
  have h := send_filtered_spec ⟨6, [0, 0, 0, 0],
    [⟨.Client 1, none, [], 0⟩, ⟨.Client 2, some 5, [], 0⟩], 0, []⟩ .All 3 [9]
    (by decide) (by decide) (by decide)
    (by
      intro t ht b hb
      simp only [List.mem_cons, List.mem_singleton] at ht
      rcases ht with h1 | h1 | h1
      · rw [h1] at hb; cases hb
      · rw [h1] at hb
        cases hb
        exact ⟨by decide, by decide⟩
      · cases h1)
  rw [h.1]
  decide

/-- C6 (amended): when the whole buffer holds no more than the registered
overhead, `fragment` drops exactly the bytes written after the last
fragment point (the buffer reverts to that point, nothing is flushed).
The source condition compares the registered overhead against the TOTAL
buffer length, not against the bytes written since the fragment point. -/
theorem overhead_discard_spec (tick : List Nat) (overhead : Nat) (t : TakenBuffer)
    (hle : t.buffer.length ≤ overhead) :
    (fragmentBuffer tick overhead t).1.buffer = t.buffer.take t.last_fragment
    ∧ (fragmentBuffer tick overhead t).1.buffer ++ t.buffer.drop t.last_fragment
      = t.buffer
    ∧ (fragmentBuffer tick overhead t).1.last_fragment = t.last_fragment
    ∧ (fragmentBuffer tick overhead t).2 = [] := by
  unfold fragmentBuffer
  simp [hle, List.take_append_drop]

/-- Witness for C6 (amended): a 7-byte buffer with fragment point at 0 and
overhead 7 is discarded entirely by `fragment`. -/
theorem overhead_discard_spec_witness :
    (fragmentBuffer [0, 0, 0, 0] 7 ⟨.Client 1, none, [1, 2, 3, 4, 5, 6, 7], 0⟩).1.buffer
      = ([1, 2, 3, 4, 5, 6, 7] : List Nat).take 0
    ∧ (fragmentBuffer [0, 0, 0, 0] 7 ⟨.Client 1, none, [1, 2, 3, 4, 5, 6, 7], 0⟩).2 = [] :=
  ⟨(overhead_discard_spec [0, 0, 0, 0] 7 ⟨.Client 1, none, [1, 2, 3, 4, 5, 6, 7], 0⟩
      (by decide)).1,
    (overhead_discard_spec [0, 0, 0, 0] 7 ⟨.Client 1, none, [1, 2, 3, 4, 5, 6, 7], 0⟩
      (by decide)).2.2.2⟩

/-- Counterexample to C6 as stated: a first round leaves 50 bytes in the
buffer with the fragment point recorded at offset 50; a second round
registers 7 bytes of overhead and writes exactly 7 speculative bytes.  The
bytes written since the fragment point (7) do not exceed the registered
overhead (7), so the claim requires the buffer to revert to 50 bytes — but
`fragment` compares the overhead against the total length (57 > 7) and
keeps all 57 bytes, recording a new fragment point at 57. -/
theorem overhead_discard_claim_counterexample :
    ((runRounds ⟨1, [0, 0, 0, 0], [⟨.Client 1, none, [], 0⟩], 0, []⟩
        [⟨[.send .All (List.replicate 50 1)]⟩]).taken.map
          (fun t => (t.buffer.length, t.last_fragment)) = [(50, 50)])
    ∧ ((runRounds ⟨1, [0, 0, 0, 0], [⟨.Client 1, none, [], 0⟩], 0, []⟩
        [⟨[.send .All (List.replicate 50 1)]⟩,
         ⟨[.addOverhead 7, .send .All (List.replicate 7 2)]⟩]).taken.map
          (fun t => (t.buffer.length, t.last_fragment)) = [(57, 57)])
    ∧ (57 - 50 : Nat) ≤ 7 := by
  refine ⟨by decide, by decide, by decide⟩

/-- Helper: one buffer operation keeps the shared fields and appends, per
recipient, exactly the bytes given by `opAppend`. -/
theorem applyOp_fields (tb : TakenBuffers) (op : BufOp) :
    (tb.applyOp op).this_run = tb.this_run
    ∧ (tb.applyOp op).tick = tb.tick
    ∧ (tb.applyOp op).filled = tb.filled
    ∧ (tb.applyOp op).taken = tb.taken.map (fun t =>
        { t with buffer := t.buffer ++ opAppend tb.this_run t.destination t.last_ack op }) := by
  cases op with
  | addOverhead n =>
    refine ⟨rfl, rfl, rfl, ?_⟩
    unfold TakenBuffers.applyOp TakenBuffers.addOverhead opAppend
    simp
  | send rule buf =>
    refine ⟨rfl, rfl, rfl, ?_⟩
    unfold TakenBuffers.applyOp TakenBuffers.send TakenBuffers.send_filtered opAppend sendCond
    simp only
    apply List.map_congr_left
    intro t _
    by_cases hc : (rule.includes t.destination
        && (t.last_ack.isNone || isNewerThan tb.this_run (t.last_ack.getD 0) tb.this_run)) = true
    · simp [hc]
    · rw [Bool.not_eq_true] at hc
      simp [hc]
  | send_filtered rule changed buf =>
    refine ⟨rfl, rfl, rfl, ?_⟩
    unfold TakenBuffers.applyOp TakenBuffers.send_filtered opAppend sendCond
    simp only
    apply List.map_congr_left
    intro t _
    by_cases hc : (rule.includes t.destination
        && (t.last_ack.isNone || isNewerThan changed (t.last_ack.getD 0) tb.this_run)) = true
    · simp [hc]
    · rw [Bool.not_eq_true] at hc
      simp [hc]

/-- Helper: folding a round's operations keeps the shared fields and
appends, per recipient, the concatenation of the per-operation bytes. -/
theorem foldl_applyOp_spec (ops : List BufOp) :
    ∀ tb : TakenBuffers,
      (ops.foldl TakenBuffers.applyOp tb).this_run = tb.this_run
      ∧ (ops.foldl TakenBuffers.applyOp tb).tick = tb.tick
      ∧ (ops.foldl TakenBuffers.applyOp tb).filled = tb.filled
      ∧ (ops.foldl TakenBuffers.applyOp tb).taken
        = tb.taken.map (fun t =>
            { t with buffer := t.buffer
                ++ (ops.map (opAppend tb.this_run t.destination t.last_ack)).flatten }) := by
  induction ops with
  | nil =>
    intro tb
    refine ⟨rfl, rfl, rfl, ?_⟩
    simp
  | cons op ops ih =>
    intro tb
    have h1 := applyOp_fields tb op
    have h2 := ih (tb.applyOp op)
    refine ⟨by rw [List.foldl_cons, h2.1, h1.1],
      by rw [List.foldl_cons, h2.2.1, h1.2.1],
      by rw [List.foldl_cons, h2.2.2.1, h1.2.2.1], ?_⟩
    rw [List.foldl_cons, h2.2.2.2, h1.1, h1.2.2.2, List.map_map]
    apply List.map_congr_left
    intro t _
    simp [Function.comp, List.append_assoc]

/-- Helper: splitting a flattened list at a prefix of its chunks. -/
theorem take_flatten_take (l : List (List Nat)) (k : Nat) :
    l.flatten.take (l.take k).flatten.length = (l.take k).flatten := by
  conv =>
    lhs
    rw [show l.flatten = (l.take k).flatten ++ (l.drop k).flatten by
      rw [← List.flatten_append, List.take_append_drop]]
  exact List.take_left _ _

/-- Helper: dropping a prefix of chunks from a flattened list. -/
theorem drop_flatten_take (l : List (List Nat)) (k : Nat) :
    l.flatten.drop (l.take k).flatten.length = (l.drop k).flatten := by
  conv =>
    lhs
    rw [show l.flatten = (l.take k).flatten ++ (l.drop k).flatten by
      rw [← List.flatten_append, List.take_append_drop]]
  exact List.drop_left _ _

/-- Helper: the loop with an empty buffer does nothing. -/
theorem fragLoop_nil (tick : List Nat) (dest : Identity) (fuel : Nat)
    (acc : List (Identity × List Nat)) :
    fragLoop tick dest fuel [] 0 acc = ([], 0, acc) := by
  cases fuel <;> rfl

/-- Helper: the empty packet list is well-formed. -/
theorem packetsOk_nil (tick : List Nat) (dest : Identity) (msgs : List (List Nat)) (M : Nat) :
    packetsOk tick dest msgs M [] :=
  fun p hp => absurd hp (List.not_mem_nil p)

/-- Helper: well-formedness of packet lists is closed under append. -/
theorem packetsOk_append (tick : List Nat) (dest : Identity) (msgs : List (List Nat)) (M : Nat)
    (ps1 ps2 : List (Identity × List Nat))
    (h1 : packetsOk tick dest msgs M ps1) (h2 : packetsOk tick dest msgs M ps2) :
    packetsOk tick dest msgs M (ps1 ++ ps2) := by
  intro p hp
  rcases List.mem_append.mp hp with h | h
  · exact h1 p h
  · exact h2 p h

/-- Helper: the packet-slicing loop, started on a buffer that is a
concatenation of whole messages with the recorded fragment point at a
message boundary, cuts only at that boundary or at the whole buffer, leaves
a concatenation of whole messages of at most `THRESHOLD` bytes with a
fragment point at a boundary, and emits only well-formed packets. -/
theorem fragLoop_spec (tick : List Nat) (dest : Identity) (msgs : List (List Nat)) (M : Nat) :
    ∀ (fuel : Nat) (pending : List (List Nat)) (k : Nat) (acc : List (Identity × List Nat)),
      pending.flatten.length < fuel →
      k ≤ pending.length →
      (∀ m ∈ pending, m ∈ msgs) →
      (pending.take k).flatten.length < THRESHOLD →
      pending.flatten.length ≤ THRESHOLD + M →
      ∃ (pending2 : List (List Nat)) (k2 : Nat) (new : List (Identity × List Nat)),
        fragLoop tick dest fuel pending.flatten (pending.take k).flatten.length acc
          = (pending2.flatten, (pending2.take k2).flatten.length, acc ++ new)
        ∧ k2 ≤ pending2.length
        ∧ (∀ m ∈ pending2, m ∈ msgs)
        ∧ (pending2.take k2).flatten.length < THRESHOLD
        ∧ pending2.flatten.length ≤ THRESHOLD
        ∧ packetsOk tick dest msgs M new := by
  intro fuel
  induction fuel with
  | zero =>
    intro pending k acc hfuel
    exact absurd hfuel (Nat.not_lt_zero _)
  | succ fuel ih =>
    intro pending k acc hfuel hk hmem hlf hlen
    by_cases hth : THRESHOLD < pending.flatten.length
    · by_cases hbr : pending.flatten.length < CAP ∨ (pending.take k).flatten.length = 0
      · -- whole-buffer cut, then the loop exits on the empty remainder
        refine ⟨[], 0, [(dest, tick ++ pending.flatten)], ?_, Nat.le_refl 0,
          fun m hm => absurd hm (List.not_mem_nil m), by decide, by decide, ?_⟩
        · rw [fragLoop]
          simp only [hth, if_true, hbr, if_true]
          rw [fragLoop_nil]
          rfl
        · intro p hp
          rw [List.mem_singleton] at hp
          subst hp
          exact ⟨rfl, pending, rfl, hmem, Or.inr hlen⟩
      · -- cut at the recorded fragment point, then continue
        push_neg at hbr
        have hlfpos : (pending.take k).flatten.length ≠ 0 := hbr.2
        have hsplit : (pending.take k).flatten.length + (pending.drop k).flatten.length
            = pending.flatten.length := by
          rw [← List.length_append, ← List.flatten_append, List.take_append_drop]
        have hrec := ih (pending.drop k) 0 (acc ++ [(dest, tick ++ (pending.take k).flatten)])
          (by omega) (Nat.zero_le _)
          (fun m hm => hmem m (List.mem_of_mem_drop hm))
          (by simp [THRESHOLD]) (by omega)
        obtain ⟨p2, k2, new2, heq, hk2, hmem2, hlf2, hlen2, hpk2⟩ := hrec
        simp only [List.take_zero, List.flatten_nil, List.length_nil] at heq
        refine ⟨p2, k2, (dest, tick ++ (pending.take k).flatten) :: new2, ?_, hk2, hmem2,
          hlf2, hlen2, ?_⟩
        · rw [fragLoop]
          have hcond : ¬ (pending.flatten.length < CAP
              ∨ (pending.take k).flatten.length = 0) := by
            push_neg
            exact hbr
          simp only [hth, if_true, hcond, if_false]
          rw [take_flatten_take, drop_flatten_take, heq]
          simp
        · intro p hp
          rcases List.mem_cons.mp hp with hp | hp
          · subst hp
            refine ⟨rfl, pending.take k, rfl, fun m hm => hmem m (List.mem_of_mem_take hm),
              Or.inl ?_⟩
            have : THRESHOLD ≤ CAP := by decide
            omega
          · exact hpk2 p hp
    · -- the loop does not run
      refine ⟨pending, k, [], ?_, hk, hmem, hlf, Nat.not_lt.mp hth, packetsOk_nil _ _ _ _⟩
      rw [fragLoop]
      simp only [hth, if_false]
      rw [List.append_nil]

/-- Helper: the per-buffer fragment body, on a buffer that is a
concatenation of whole messages with the fragment point at a message
boundary, preserves that shape (discarding, recording a new point, or
slicing packets) and emits only well-formed packets. -/
theorem fragmentBuffer_spec (tick : List Nat) (overhead : Nat) (dest : Identity)
    (last_ack : Option Nat) (msgs : List (List Nat)) (M : Nat)
    (pending : List (List Nat)) (k : Nat)
    (hk : k ≤ pending.length)
    (hmem : ∀ m ∈ pending, m ∈ msgs)
    (hlf : (pending.take k).flatten.length < THRESHOLD)
    (hlen : pending.flatten.length ≤ THRESHOLD + M) :
    ∃ (pending2 : List (List Nat)) (k2 : Nat) (new : List (Identity × List Nat)),
      fragmentBuffer tick overhead
          ⟨dest, last_ack, pending.flatten, (pending.take k).flatten.length⟩
        = (⟨dest, last_ack, pending2.flatten, (pending2.take k2).flatten.length⟩, new)
      ∧ k2 ≤ pending2.length
      ∧ (∀ m ∈ pending2, m ∈ msgs)
      ∧ (pending2.take k2).flatten.length < THRESHOLD
      ∧ pending2.flatten.length ≤ THRESHOLD
      ∧ packetsOk tick dest msgs M new := by
  unfold fragmentBuffer
  by_cases h1 : pending.flatten.length ≤ overhead
  · refine ⟨pending.take k, k, [], ?_, ?_, ?_, ?_, ?_, packetsOk_nil _ _ _ _⟩
    · simp only [h1, if_true]
      rw [take_flatten_take]
      have : (pending.take k).take k = pending.take k := by
        rw [List.take_take, min_self]
      rw [this]
    · simp [hk]
    · exact fun m hm => hmem m (List.mem_of_mem_take hm)
    · rw [List.take_take, min_self]
      exact hlf
    · exact Nat.le_of_lt hlf
  · by_cases h2 : pending.flatten.length < THRESHOLD
    · refine ⟨pending, pending.length, [], ?_, Nat.le_refl _, hmem, ?_, Nat.le_of_lt h2,
        packetsOk_nil _ _ _ _⟩
      · simp only [h1, if_false, h2, if_true]
        rw [List.take_length]
      · rw [List.take_length]
        exact h2
    · simp only [h1, if_false, h2, if_false]
      obtain ⟨p2, k2, new, heq, hk2, hmem2, hlf2, hlen2, hpk⟩ :=
        fragLoop_spec tick dest msgs M (pending.flatten.length + 1) pending k []
          (Nat.lt_succ_self _) hk hmem hlf hlen
      rw [List.nil_append] at heq
      refine ⟨p2, k2, new, ?_, hk2, hmem2, hlf2, hlen2, hpk⟩
      rw [heq]

/-- Helper: one message round preserves the single-recipient buffer
invariant, provided the round's message is one of the allowed messages and
is no longer than the single-message bound. -/
theorem runRound_inv (this_run : Nat) (tick : List Nat) (dest : Identity)
    (last_ack : Option Nat) (msgs : List (List Nat)) (M : Nat) (tb : TakenBuffers) (r : Round)
    (hinv : bufInv this_run tick dest last_ack msgs M tb)
    (hmsg : roundMsg this_run dest last_ack r ∈ msgs)
    (hM : (roundMsg this_run dest last_ack r).length ≤ M) :
    bufInv this_run tick dest last_ack msgs M (runRound tb r) := by
  obtain ⟨hrun, htick, ⟨pending, k, htaken, hk, hmem, hlf, hlen⟩, hfilled⟩ := hinv
  unfold runRound
  have hfold := foldl_applyOp_spec r.ops tb
  have htaken2 : (r.ops.foldl TakenBuffers.applyOp tb).taken
      = [⟨dest, last_ack, (pending ++ [roundMsg this_run dest last_ack r]).flatten,
          ((pending ++ [roundMsg this_run dest last_ack r]).take k).flatten.length⟩] := by
    rw [hfold.2.2.2, htaken, hrun]
    simp only [List.map_cons, List.map_nil]
    have htk : (pending ++ [roundMsg this_run dest last_ack r]).take k = pending.take k :=
      List.take_append_of_le_length hk
    rw [htk]
    simp [roundMsg]
  have hk2 : k ≤ (pending ++ [roundMsg this_run dest last_ack r]).length := by
    rw [List.length_append]
    omega
  have hmem2 : ∀ m ∈ pending ++ [roundMsg this_run dest last_ack r], m ∈ msgs := by
    intro m hm
    rcases List.mem_append.mp hm with hm | hm
    · exact hmem m hm
    · rw [List.mem_singleton] at hm
      rw [hm]
      exact hmsg
  have hlf2 : ((pending ++ [roundMsg this_run dest last_ack r]).take k).flatten.length
      < THRESHOLD := by
    rw [List.take_append_of_le_length hk]
    exact hlf
  have hlen2 : (pending ++ [roundMsg this_run dest last_ack r]).flatten.length
      ≤ THRESHOLD + M := by
    rw [List.flatten_append]
    simp only [List.flatten_cons, List.flatten_nil, List.append_nil, List.length_append]
    omega
  obtain ⟨p2, k2, new, heq, hk3, hmem3, hlf3, hlen3, hpk⟩ :=
    fragmentBuffer_spec tick (r.ops.foldl TakenBuffers.applyOp tb).overhead dest last_ack
      msgs M (pending ++ [roundMsg this_run dest last_ack r]) k hk2 hmem2 hlf2 hlen2
  unfold TakenBuffers.fragment
  rw [htaken2]
  simp only [List.map_cons, List.map_nil]
  rw [hfold.2.1, htick, heq]
  simp only [List.map_cons, List.map_nil, List.flatten_cons, List.flatten_nil,
    List.append_nil]
  refine ⟨hfold.1.trans hrun, rfl, ⟨p2, k2, rfl, hk3, hmem3, hlf3, hlen3⟩, ?_⟩
  rw [hfold.2.2.1]
  exact packetsOk_append tick dest msgs M tb.filled new hfilled hpk

/-- Helper: running any sequence of message rounds preserves the
single-recipient buffer invariant. -/
theorem runRounds_inv (this_run : Nat) (tick : List Nat) (dest : Identity)
    (last_ack : Option Nat) (msgs : List (List Nat)) (M : Nat) :
    ∀ (rs : List Round) (tb : TakenBuffers),
      bufInv this_run tick dest last_ack msgs M tb →
      (∀ r ∈ rs, roundMsg this_run dest last_ack r ∈ msgs
        ∧ (roundMsg this_run dest last_ack r).length ≤ M) →
      bufInv this_run tick dest last_ack msgs M (runRounds tb rs) := by
  intro rs
  induction rs with
  | nil => intro tb hinv _; exact hinv
  | cons r rest ih =>
    intro tb hinv hall
    have hr := hall r (List.mem_cons_self r rest)
    exact ih (runRound tb r) (runRound_inv this_run tick dest last_ack msgs M tb r
        hinv hr.1 hr.2)
      (fun r2 hr2 => hall r2 (List.mem_cons_of_mem r hr2))

/-- C5 (amended): for any sequence of message rounds (sends plus one
`fragment()` per message) on a freshly taken buffer, every emitted packet
is the 4-byte tick prefix followed by a concatenation of WHOLE messages
(no packet boundary falls inside a message's byte span — cuts happen only
at a recorded fragment point or at the full buffer), and every packet's
payload is within the hard cap `CAP` or within `THRESHOLD + M` bytes where
`M` bounds a single message's size (an over-cap packet holds the whole
buffer: up to `THRESHOLD` carried-over bytes of whole earlier messages plus
the latest message; it is NOT always a single message). -/
theorem fragmentation_atomicity_amended (this_run : Nat) (tick : List Nat) (dest : Identity)
    (last_ack : Option Nat) (rs : List Round) (M : Nat)
    (hM : ∀ r ∈ rs, (roundMsg this_run dest last_ack r).length ≤ M) :
    ∀ p ∈ (runRounds ⟨this_run, tick, [⟨dest, last_ack, [], 0⟩], 0, []⟩ rs).filled,
      p.1 = dest
      ∧ ∃ l : List (List Nat), p.2 = tick ++ l.flatten
        ∧ (∀ m ∈ l, ∃ r ∈ rs, m = roundMsg this_run dest last_ack r)
        ∧ (l.flatten.length ≤ CAP ∨ l.flatten.length ≤ THRESHOLD + M) := by
  have hinv0 : bufInv this_run tick dest last_ack
      (rs.map (roundMsg this_run dest last_ack)) M
      ⟨this_run, tick, [⟨dest, last_ack, [], 0⟩], 0, []⟩ := by
    refine ⟨rfl, rfl, ⟨[], 0, rfl, Nat.le_refl 0,
      fun m hm => absurd hm (List.not_mem_nil m), by decide, by decide⟩,
      packetsOk_nil _ _ _ _⟩
  have hfin := runRounds_inv this_run tick dest last_ack
    (rs.map (roundMsg this_run dest last_ack)) M rs
    ⟨this_run, tick, [⟨dest, last_ack, [], 0⟩], 0, []⟩ hinv0
    (fun r hr => ⟨List.mem_map_of_mem _ hr, hM r hr⟩)
  intro p hp
  obtain ⟨hdest, l, hpl, hmem, hbound⟩ := hfin.2.2.2 p hp
  refine ⟨hdest, l, hpl, ?_, hbound⟩
  intro m hm
  obtain ⟨r, hr, hrm⟩ := List.mem_map.mp (hmem m hm)
  exact ⟨r, hr, hrm.symm⟩

/-- Witness for C5 (amended): a single 1200-byte message is emitted whole
as one (oversized) packet; the theorem instantiated there. -/
theorem fragmentation_atomicity_amended_witness :
    ((Identity.Client 1, ([0, 0, 0, 0] : List Nat) ++ List.replicate 1200 3).1
      = Identity.Client 1)
    ∧ ∃ l : List (List Nat),
      (Identity.Client 1, ([0, 0, 0, 0] : List Nat) ++ List.replicate 1200 3).2
        = [0, 0, 0, 0] ++ l.flatten
      ∧ (∀ m ∈ l, ∃ r ∈ [(⟨[.send .All (List.replicate 1200 3)]⟩ : Round)],
          m = roundMsg 1 (.Client 1) none r)
      ∧ (l.flatten.length ≤ CAP ∨ l.flatten.length ≤ THRESHOLD + 1200) :=
  fragmentation_atomicity_amended 1 [0, 0, 0, 0] (.Client 1) none
    [⟨[.send .All (List.replicate 1200 3)]⟩] 1200 (by decide)
    (Identity.Client 1, ([0, 0, 0, 0] : List Nat) ++ List.replicate 1200 3) (by decide)

/-- Counterexample to C5 as stated: three 600-byte messages, each followed
by its `fragment()` call.  The first fragment records a point at 600; the
second cuts there, emitting a 600-byte-payload packet and leaving the
second message buffered with NO recorded fragment point; the third
fragment then finds 1200 bytes with `last_fragment == 0` and emits them as
ONE packet whose 1200-byte payload exceeds `CAP = 1198` even though every
individual message (600 bytes) is far below the cap — so an over-cap
packet is not always a single oversized message. -/
theorem fragmentation_cap_counterexample :
    ((runRounds ⟨1, [0, 0, 0, 0], [⟨.Client 1, none, [], 0⟩], 0, []⟩
        [⟨[.send .All (List.replicate 600 3)]⟩,
         ⟨[.send .All (List.replicate 600 3)]⟩,
         ⟨[.send .All (List.replicate 600 3)]⟩]).filled.map (fun p => p.2.length)
      = [604, 1204])
    ∧ CAP + 4 < 1204
    ∧ (List.replicate 600 (3 : Nat)).length ≤ CAP := by
  refine ⟨by decide, by decide, by decide⟩

/-- Helper: the path order is transitive. -/
theorem pathLe_trans : ∀ (a b c : Nat), pathLe a b → pathLe b c → pathLe a c := by
  intro a b c hab hbc
  exact decide_eq_true (le_trans (of_decide_eq_true hab) (of_decide_eq_true hbc))

/-- Helper: the path order is total. -/
theorem pathLe_total : ∀ (a b : Nat), pathLe a b || pathLe b a := by
  intro a b
  unfold pathLe
  rcases le_total a b with h | h
  · simp [h]
  · simp [h]

/-- Helper: sorting by the path order yields a `≤`-sorted list. -/
theorem sorted_mergeSort_pathLe (l : List Nat) :
    List.Sorted (· ≤ ·) (l.mergeSort pathLe) :=
  (List.sorted_mergeSort pathLe_trans pathLe_total l).imp
    (fun hab => of_decide_eq_true hab)

/-- Helper: `mergeSort` with the path order produces the same list on any
two permutations of the inputs (antisymmetry of the string order). -/
theorem mergeSort_pathLe_eq_of_perm (l1 l2 : List Nat) (h : l1.Perm l2) :
    l1.mergeSort pathLe = l2.mergeSort pathLe :=
  List.eq_of_perm_of_sorted
    (((List.mergeSort_perm l1 _).trans h).trans (List.mergeSort_perm l2 _).symm)
    (sorted_mergeSort_pathLe l1) (sorted_mergeSort_pathLe l2)

/-- Helper: sorting an out-of-order pair swaps it. -/
theorem mergeSort_pathLe_pair (a b : Nat) (hba : b ≤ a) :
    List.mergeSort [a, b] pathLe = [b, a] :=
  List.eq_of_perm_of_sorted
    ((List.mergeSort_perm [a, b] pathLe).trans (List.Perm.swap b a []))
    (sorted_mergeSort_pathLe [a, b])
    (by
      rw [List.sorted_cons]
      exact ⟨fun x hx => by
        rw [List.mem_singleton] at hx
        rw [hx]
        exact hba, List.sorted_singleton a⟩)

/-- Helper: the numbering loop pairs the k-th element with `i + k + 1`. -/
theorem numberFrom_ids (i : Nat) :
    ∀ l : List Nat, (numberFrom i l).map Prod.snd = List.range' (i + 1) l.length := by
  intro l
  induction l generalizing i with
  | nil => rfl
  | cons p rest ih =>
    simp only [numberFrom, List.map_cons, List.length_cons, List.range'_succ]
    rw [ih (i + 1)]

/-- Helper: the numbering loop keeps the paths. -/
theorem numberFrom_paths (i : Nat) :
    ∀ l : List Nat, (numberFrom i l).map Prod.fst = l := by
  intro l
  induction l generalizing i with
  | nil => rfl
  | cons p rest ih =>
    simp only [numberFrom, List.map_cons]
    rw [ih (i + 1)]

/-- Helper: every id the numbering loop assigns is strictly above `i`. -/
theorem numberFrom_pos (i : Nat) :
    ∀ l : List Nat, ∀ p ∈ numberFrom i l, i + 1 ≤ p.2 := by
  intro l
  induction l generalizing i with
  | nil => intro p hp; exact absurd hp (List.not_mem_nil p)
  | cons q rest ih =>
    intro p hp
    rcases List.mem_cons.mp hp with hp | hp
    · rw [hp]
    · exact le_trans (Nat.le_succ _) (ih (i + 1) p hp)

/-- Helper: inserting under a nonzero id never disturbs the id-0 entry. -/
theorem lookupHandler_insert_ne (h : List (Nat × HandlerTag)) (i : Nat) (tag : HandlerTag)
    (hne : i ≠ 0) : lookupHandler (insertHandler h i tag) 0 = lookupHandler h 0 := by
  induction h with
  | nil => simp [insertHandler, lookupHandler, hne]
  | cons kv rest ih =>
    obtain ⟨k, v⟩ := kv
    by_cases hk : k = i
    · subst hk
      simp [insertHandler, lookupHandler, hne]
    · simp only [insertHandler, if_neg hk]
      by_cases hk0 : k = 0
      · subst hk0
        simp [lookupHandler]
      · simp [lookupHandler, hk0, ih]

/-- Helper: a fold of nonzero-id insertions keeps the id-0 entry. -/
theorem lookupHandler_foldl_ne (mk : Nat → HandlerTag) :
    ∀ (l : List (Nat × Nat)) (h : List (Nat × HandlerTag)),
      (∀ p ∈ l, 1 ≤ p.2) →
      lookupHandler (l.foldl (fun h p => insertHandler h p.2 (mk p.1)) h) 0
        = lookupHandler h 0 := by
  intro l
  induction l with
  | nil => intro h _; rfl
  | cons p rest ih =>
    intro h hpos
    rw [List.foldl_cons]
    rw [ih _ (fun q hq => hpos q (List.mem_cons_of_mem p hq))]
    exact lookupHandler_insert_ne h p.2 (mk p.1)
      (by have := hpos p (List.mem_cons_self p rest); omega)

/-- C8 (amended): id generation is deterministic — any two registries with
the same registered bundle and event sets (in any iteration order) produce
identical assignments; the BUNDLES, sorted by their stable type path, get
sequential ids 1..n_bundles, and the EVENTS, sorted by path, continue with
n_bundles+1..; packet id 0 is never assigned to a registered type and the
built dispatch table maps it to the despawn handler.  (The source does NOT
merge bundles and events into one sorted sequence.) -/
theorem generate_ids_spec (bundles events : List Nat) :
    (∀ bundles2 events2 : List Nat, bundles.Perm bundles2 → events.Perm events2 →
      generate_ids bundles events = generate_ids bundles2 events2)
    ∧ ((generate_ids bundles events).1.map Prod.fst = bundles.mergeSort pathLe
      ∧ (generate_ids bundles events).1.map Prod.snd = List.range' 1 bundles.length)
    ∧ ((generate_ids bundles events).2.map Prod.fst = events.mergeSort pathLe
      ∧ (generate_ids bundles events).2.map Prod.snd
        = List.range' (bundles.length + 1) events.length)
    ∧ (∀ p ∈ (generate_ids bundles events).1, 1 ≤ p.2)
    ∧ (∀ p ∈ (generate_ids bundles events).2, 1 ≤ p.2)
    ∧ lookupHandler (buildHandlers bundles events) 0 = some .despawnHandler := by
  have hpos1 : ∀ p ∈ (generate_ids bundles events).1, 1 ≤ p.2 :=
    numberFrom_pos 0 (bundles.mergeSort pathLe)
  have hpos2 : ∀ p ∈ (generate_ids bundles events).2, 1 ≤ p.2 := by
    intro p hp
    have := numberFrom_pos bundles.length (events.mergeSort pathLe) p hp
    omega
  refine ⟨?_, ⟨?_, ?_⟩, ⟨?_, ?_⟩, hpos1, hpos2, ?_⟩
  · intro bundles2 events2 hb he
    unfold generate_ids
    rw [mergeSort_pathLe_eq_of_perm bundles bundles2 hb,
      mergeSort_pathLe_eq_of_perm events events2 he, hb.length_eq]
  · exact numberFrom_paths 0 _
  · unfold generate_ids
    rw [numberFrom_ids, List.length_mergeSort]
  · exact numberFrom_paths bundles.length _
  · unfold generate_ids
    rw [numberFrom_ids, List.length_mergeSort]
  · unfold buildHandlers
    rw [lookupHandler_foldl_ne _ _ _ hpos2, lookupHandler_foldl_ne _ _ _ hpos1]
    rfl

/-- Witness for C8 (amended): two bundles and one event registered in
different hash iteration orders get identical ids, and packet id 0 stays
the despawn handler. -/
theorem generate_ids_spec_witness :
    generate_ids [2, 1] [5] = generate_ids [1, 2] [5]
    ∧ lookupHandler (buildHandlers [2, 1] [5]) 0 = some .despawnHandler :=
  ⟨(generate_ids_spec [2, 1] [5]).1 [1, 2] [5] (List.Perm.swap 1 2 []) (List.Perm.refl [5]),
    (generate_ids_spec [2, 1] [5]).2.2.2.2.2⟩

/-- Counterexample to C8 as stated: with one bundle at path 26 (think "Z")
and one event at path 1 (think "A"), the source numbers the bundle 1 and
the event 2 (bundles first, then events, each sorted separately), whereas
sorting bundles and events TOGETHER by path — as the claim states — would
give the event id 1 and the bundle id 2. -/
theorem generate_ids_merged_counterexample :
    (generate_ids [26] [1]).1 = [(26, 1)]
    ∧ (generate_ids [26] [1]).2 = [(1, 2)]
    ∧ generateIdsMergedSpec [26] [1] = [(1, 1), (26, 2)] := by
  have h3 : List.mergeSort [26, 1] pathLe = [1, 26] :=
    mergeSort_pathLe_pair 26 1 (by decide)
  refine ⟨?_, ?_, ?_⟩
  · unfold generate_ids
    rw [List.mergeSort_singleton, List.mergeSort_singleton]
    rfl
  · unfold generate_ids
    rw [List.mergeSort_singleton, List.mergeSort_singleton]
    rfl
  · unfold generateIdsMergedSpec
    rw [show ([26] ++ [1] : List Nat) = [26, 1] from rfl, h3]
    rfl

/-- C9: processing a received packet (1) ignores entirely a packet shorter
than the 4-byte tick header; (2) given a run of well-formed messages (each
an id byte with a registered handler that consumes exactly its payload)
followed by either nothing (cursor exhausted) or a byte with no registered
handler, applies exactly the well-formed prefix's effects in order — the
remaining bytes are dropped, already-applied messages keep their effect,
and the loop (a total function) never panics; (3) the header is split off
as described. -/
theorem process_malformed_spec :
    (∀ (σ : Type) (h : Nat → Option (Nat → σ → List Nat → σ × Nat)) (s : σ) (b : List Nat),
      b.length < 4 → Handlers.process h s b = s)
    ∧ (∀ (σ : Type) (h : Nat → Option (Nat → σ → List Nat → σ × Nat)) (tick : Nat)
        (msgs : List (Nat × List Nat × (σ → σ))) (junk : List Nat) (fuel : Nat) (s : σ),
      (∀ m ∈ msgs, ∃ f, h m.1 = some f
        ∧ ∀ (s2 : σ) (r : List Nat), f tick s2 (m.2.1 ++ r) = (m.2.2 s2, m.2.1.length)) →
      (junk = [] ∨ ∃ j js, junk = j :: js ∧ h j = none) →
      ((msgs.map (fun m => m.1 :: m.2.1)).flatten ++ junk).length < fuel →
      processLoop h tick fuel s ((msgs.map (fun m => m.1 :: m.2.1)).flatten ++ junk)
        = msgs.foldl (fun s2 m => m.2.2 s2) s)
    ∧ (∀ (σ : Type) (h : Nat → Option (Nat → σ → List Nat → σ × Nat)) (s : σ)
        (t4 body : List Nat), t4.length = 4 →
      Handlers.process h s (t4 ++ body)
        = processLoop h (fromLeBytes t4) ((t4 ++ body).length + 1) s body) := by
  refine ⟨?_, ?_, ?_⟩
  · intro σ h s b hb
    unfold Handlers.process
    simp [hb]
  · intro σ h tick msgs
    induction msgs with
    | nil =>
      intro junk fuel s _ hjunk hfuel
      simp only [List.map_nil, List.flatten_nil, List.nil_append] at hfuel ⊢
      rcases hjunk with hj | ⟨j, js, hj, hnone⟩
      · subst hj
        cases fuel with
        | zero => rfl
        | succ fuel => rfl
      · subst hj
        cases fuel with
        | zero => exact absurd hfuel (Nat.not_lt_zero _)
        | succ fuel =>
          unfold processLoop
          simp [hnone]
    | cons m rest ih =>
      intro junk fuel s hgood hjunk hfuel
      obtain ⟨f, hf, hfeat⟩ := hgood m (List.mem_cons_self m rest)
      simp only [List.map_cons, List.flatten_cons, List.cons_append, List.append_assoc,
        List.length_cons, List.length_append] at hfuel ⊢
      cases fuel with
      | zero => exact absurd hfuel (Nat.not_lt_zero _)
      | succ fuel =>
        unfold processLoop
        simp only [hf]
        rw [hfeat s ((rest.map (fun m => m.1 :: m.2.1)).flatten ++ junk)]
        simp only
        rw [List.drop_left]
        rw [List.foldl_cons]
        exact ih junk fuel (m.2.2 s)
          (fun m2 hm2 => hgood m2 (List.mem_cons_of_mem m hm2)) hjunk
          (by
            simp only [List.length_append] at hfuel ⊢
            omega)
  · intro σ h s t4 body ht
    unfold Handlers.process
    have hlen : ¬ (t4 ++ body).length < 4 := by
      rw [List.length_append, ht]
      omega
    simp only [hlen, if_false]
    rw [List.take_left' ht, List.drop_left' ht]

/-- Witness for C9: one well-formed message (id 1, one payload byte, a
handler that adds the byte), then an id (9) with no registered handler
followed by garbage: the garbage is dropped and the first message's effect
stands; and any 3-byte packet is ignored. -/
theorem process_malformed_spec_witness :
    processLoop (fun pid => if pid = 1
        then some (fun _ (s : Nat) l => (s + l.headD 0, 1)) else none)
      7 10 0 [1, 5, 9, 2, 2]
      = 5
    ∧ Handlers.process (fun pid => if pid = 1
        then some (fun _ (s : Nat) l => (s + l.headD 0, 1)) else none)
      0 [3, 3, 3] = 0 := by
  constructor
  · have h := process_malformed_spec.2.1 Nat
      (fun pid => if pid = 1 then some (fun _ (s : Nat) l => (s + l.headD 0, 1)) else none)
      7 [(1, [5], fun s => s + 5)] [9, 2, 2] 10 0
      (by
        intro m hm
        rw [List.mem_singleton] at hm
        subst hm
        exact ⟨_, rfl, fun s2 r => rfl⟩)
      (Or.inr ⟨9, [2, 2], rfl, rfl⟩)
      (by decide)
    simpa using h
  · exact process_malformed_spec.1 Nat _ 0 [3, 3, 3] (by decide)

end Bundlication
